import Mathlib

/-!
# Procedural texture pipeline (`graphics/texture.c`)

A shallow embedding of the texture generators of `graphics/texture.c`
and the properties of them that the specification states.

Conventions of the embedding.

* A C `float` or `double` value is the rational number it denotes. Every
  floating operation of the source is the exact operation followed by the
  rounding of its C type: `f32` rounds to `float`, `f64` to `double` (round to
  nearest, ties to even; overflow to infinity and NaN are not modelled, the
  values of these functions stay far from both).
* The libm functions are parameters of the definitions: `cosd`, `sind` stand
  for `cos`, `sin` (on `double`), `sinf` for `sinf` (on `float`). A theorem states
  what it assumes of them.
* `dot`, `lerp`, `perlinCell`, `perlin2` are the nested functions of
  `texPerlin2d` in exact arithmetic over an ordered field, the function the
  specification describes; `dotF`, `lerpF`, `perlinCellF`, `perlin2F` are the
  same bodies with the rounding of every operation, what the code computes.
* `dotChk`, `perlinCellChk`, `perlin2Chk` are `dotF`, `perlinCellF`, `perlin2F`
  over grid arrays of a given length: a read outside the array gives `none`.
* C `int` values are integers (no overflow is modelled), `unsigned char`
  values are naturals, stores into an `unsigned char` reduce modulo `256`.
* `rand()` is a stream `rand : ℕ → ℕ` together with the number of calls made
  so far.
* A buffer is the list of its bytes.
-/

namespace Texture
section FloatDefs

/-- Binary logarithm by repeated halving; `fuel` bounds the number of steps. -/
def log2Fuel : ℕ → ℕ → ℕ
  | 0, _ => 0
  | fuel + 1, n => if n < 2 then 0 else log2Fuel fuel (n / 2) + 1

/-- Floor of the binary logarithm of a positive natural number. -/
def natLog2 (n : ℕ) : ℕ := log2Fuel n n

/-- The power `2 ^ e` for an integer exponent. -/
def pow2 (e : ℤ) : ℚ :=
  if 0 ≤ e then ((2 ^ e.toNat : ℕ) : ℚ) else 1 / ((2 ^ (-e).toNat : ℕ) : ℚ)

/-- Floor of the binary logarithm of `|x|`, for `x ≠ 0`. -/
def ilog2 (x : ℚ) : ℤ :=
  let k : ℤ := (natLog2 x.num.natAbs : ℤ) - (natLog2 x.den : ℤ)
  if pow2 k ≤ |x| then k else k - 1

/-- Nearest integer, ties to the even one. -/
def roundHalfEven (x : ℚ) : ℤ :=
  let f := ⌊x⌋
  let r := x - f
  if r < 1 / 2 then f else if 1 / 2 < r then f + 1 else if f % 2 = 0 then f else f + 1

/-- IEEE 754 rounding to nearest, ties to even, into the binary format with `p`
significand bits whose least subnormal is `2 ^ emin` (overflow to infinity is
not modelled). -/
def roundTo (p : ℕ) (emin : ℤ) (x : ℚ) : ℚ :=
  if x = 0 then 0 else
    let q := pow2 (max (ilog2 x - ((p : ℤ) - 1)) emin)
    (roundHalfEven (x / q) : ℚ) * q

/-- Rounding to C `float` (binary32). -/
def f32 (x : ℚ) : ℚ := roundTo 24 (-149) x

/-- Rounding to C `double` (binary64). -/
def f64 (x : ℚ) : ℚ := roundTo 53 (-1074) x

end FloatDefs

section Model

variable {K : Type} [LinearOrderedField K] [FloorRing K]

/-- The C conversion `(int)x` of a floating value: truncation toward zero. -/
def truncInt (x : K) : ℤ := if 0 ≤ x then ⌊x⌋ else ⌈x⌉

/-- The C conversion `(unsigned char)x` of a floating value: truncation, kept
in one byte (C leaves the conversion undefined outside `(-1, 256)`). -/
def toU8 (x : K) : ℕ := (truncInt x % 256).toNat

/-- Grid extent of `texPerlin2d`: `2 + width / griddist` with C integer
division. -/
def gridSize (extent griddist : ℤ) : ℤ := 2 + Int.tdiv extent griddist

/-- Row-major position `iy * gridnx + ix` of a lattice point in the grid
arrays. -/
def gridIndex (gridnx ix iy : ℤ) : ℤ := iy * gridnx + ix

/-- Nested function `dot` of `texPerlin2d`: dot product of the distance and
gradient vectors. `gridx`, `gridy` are the captured grid arrays, read at an
index. -/
def dot (gridnx : ℤ) (gridx gridy : ℤ → K) (ix iy : ℤ) (x y : K) : K :=
  let dx := x - (ix : K)
  let dy := y - (iy : K)
  let gx := gridx (gridIndex gridnx ix iy)
  let gy := gridy (gridIndex gridnx ix iy)
  dx * gx + dy * gy

/-- Nested function `lerp` of `texPerlin2d`: interpolation with the cosine
ease of the weight. -/
def lerp (cosf : K → K) (pi : K) (a0 a1 w : K) : K :=
  let w := (1 - cosf (pi * w)) / 2
  (1 - w) * a0 + w * a1

/-- Body of `perlin2` once the cell `(x0, y0)` is fixed. -/
def perlinCell (cosf : K → K) (pi : K) (gridnx : ℤ) (gridx gridy : ℤ → K)
    (x0 y0 : ℤ) (x y : K) : K :=
  let x1 := x0 + 1
  let y1 := y0 + 1
  let sx := x - (x0 : K)
  let sy := y - (y0 : K)
  let ix0 := lerp cosf pi (dot gridnx gridx gridy x0 y0 x y) (dot gridnx gridx gridy x1 y0 x y) sx
  let ix1 := lerp cosf pi (dot gridnx gridx gridy x0 y1 x y) (dot gridnx gridx gridy x1 y1 x y) sx
  lerp cosf pi ix0 ix1 sy

/-- Nested function `perlin2` of `texPerlin2d`: the cell is
`x0 = (int)x`, `y0 = (int)y`. -/
def perlin2 (cosf : K → K) (pi : K) (gridnx : ℤ) (gridx gridy : ℤ → K) (x y : K) : K :=
  perlinCell cosf pi gridnx gridx gridy (truncInt x) (truncInt y) x y

/-- One byte of the accumulation loop of `texPerlinGrad2d`: `b` is
`buffer[i]`, `t` is `tmp[i]`. -/
def accumulate (opacity : K) (b t : ℕ) : ℕ :=
  let bit := toU8 ((t : K) * opacity)
  if b + bit > 255 then 255 else (b + bit) % 256

/-- The values of `(griddist, opacity)` at the passes of the `while` loop of
`texPerlinGrad2d`, in order. -/
def gradOctaves {K : Type} [LinearOrderedField K] [FloorRing K] (griddist opacity : K) :
    List (K × K) :=
  if h : griddist > 1 then
    (griddist, opacity) :: gradOctaves (griddist / 2) (opacity / 2)
  else []
termination_by ⌈griddist⌉₊
decreasing_by
  have h1 : 1 < ⌈griddist⌉₊ := Nat.lt_ceil.mpr (by simpa using h)
  have h2 : griddist ≤ (⌈griddist⌉₊ : K) := Nat.le_ceil griddist
  have h3 : ⌈griddist / 2⌉₊ ≤ ⌈griddist⌉₊ - 1 := by
    rw [Nat.ceil_le]
    have h4 : (2 : K) ≤ (⌈griddist⌉₊ : K) := by exact_mod_cast h1
    rw [Nat.cast_sub h1.le, Nat.cast_one]
    linarith
  omega

end Model

section FloatModel

/-- The literal `3.141592653589f`. -/
def piF : ℚ := f32 (3141592653589 / 1000000000000)

/-- The literal `3.141592653` (a `double`). -/
def piD : ℚ := f64 (3141592653 / 1000000000)

/-- The statement
`float angle = (((float)(rand() % 1000)) / 1000.0f) * 2 * 3.141592653;` for the
value `r` returned by `rand()`: two `float` operations, the product with the
`double` literal, and the conversion back to `float`. -/
def gridAngleF (r : ℕ) : ℚ :=
  f32 (f64 (f32 (f32 (f32 ((r % 1000 : ℕ) : ℚ) / 1000) * 2) * piD))

/-- Nested function `dot` of `texPerlin2d` as the code computes it. -/
def dotF (gridnx : ℤ) (gridx gridy : ℤ → ℚ) (ix iy : ℤ) (x y : ℚ) : ℚ :=
  let dx := f32 (x - f32 (ix : ℚ))
  let dy := f32 (y - f32 (iy : ℚ))
  let gx := gridx (gridIndex gridnx ix iy)
  let gy := gridy (gridIndex gridnx ix iy)
  f32 (f32 (dx * gx) + f32 (dy * gy))

/-- Nested function `lerp` of `texPerlin2d` as the code computes it: the
argument of `cos` is a `float` product, `(1.0f - cos(...)) / 2` is computed in
`double` and stored into the `float` `w`. -/
def lerpF (cosd : ℚ → ℚ) (a0 a1 w : ℚ) : ℚ :=
  let w := f32 (f64 (f64 (1 - cosd (f32 (piF * w))) / 2))
  f32 (f32 (f32 (1 - w) * a0) + f32 (w * a1))

/-- Body of `perlin2` as the code computes it, once the cell `(x0, y0)` is
fixed. -/
def perlinCellF (cosd : ℚ → ℚ) (gridnx : ℤ) (gridx gridy : ℤ → ℚ)
    (x0 y0 : ℤ) (x y : ℚ) : ℚ :=
  let x1 := x0 + 1
  let y1 := y0 + 1
  let sx := f32 (x - f32 (x0 : ℚ))
  let sy := f32 (y - f32 (y0 : ℚ))
  let ix0 := lerpF cosd (dotF gridnx gridx gridy x0 y0 x y) (dotF gridnx gridx gridy x1 y0 x y) sx
  let ix1 := lerpF cosd (dotF gridnx gridx gridy x0 y1 x y) (dotF gridnx gridx gridy x1 y1 x y) sx
  lerpF cosd ix0 ix1 sy

/-- Nested function `perlin2` of `texPerlin2d` as the code computes it. -/
def perlin2F (cosd : ℚ → ℚ) (gridnx : ℤ) (gridx gridy : ℤ → ℚ) (x y : ℚ) : ℚ :=
  perlinCellF cosd gridnx gridx gridy (truncInt x) (truncInt y) x y

/-- The argument `(float)col / griddist` that the pixel loop of `texPerlin2d`
passes to `perlin2`. -/
def perlinSample (griddist : ℤ) (col : ℕ) : ℚ :=
  f32 (f32 (col : ℚ) / f32 (griddist : ℚ))

/-- Byte written for pixel `(col, row)` by the pixel loop of `texPerlin2d`. -/
def perlinByte (cosd : ℚ → ℚ) (gridnx : ℤ) (gridx gridy : ℤ → ℚ)
    (griddist : ℤ) (col row : ℕ) : ℕ :=
  let val := f32 (f32 (1 / 2 * perlin2F cosd gridnx gridx gridy
    (perlinSample griddist col) (perlinSample griddist row)) + 1 / 2)
  toU8 (f32 (val * 255))

/-- Function `texPerlin2d(width, height, buffer, griddist)`. `off` is the number
of `rand()` calls made before; grid entry `i` is filled by call `off + i`.
Returns the buffer written and the number of `rand()` calls made afterwards. -/
def texPerlin2d (cosd sind : ℚ → ℚ) (rand : ℕ → ℕ) (off : ℕ)
    (width height griddist : ℤ) : List ℕ × ℕ :=
  let gridnx := gridSize width griddist
  let gridny := gridSize height griddist
  let gridn := gridnx * gridny
  let gridx : ℤ → ℚ := fun i => f32 (cosd (gridAngleF (rand (off + i.toNat))))
  let gridy : ℤ → ℚ := fun i => f32 (sind (gridAngleF (rand (off + i.toNat))))
  let data := (List.range height.toNat).flatMap fun row =>
    (List.range width.toNat).flatMap fun col =>
      let valc := perlinByte cosd gridnx gridx gridy griddist col row
      [valc, valc, valc]
  (data, off + gridn.toNat)

/-- One pass of the `while` body of `texPerlinGrad2d`; the state is the buffer
and the number of `rand()` calls made. -/
def octaveStep (cosd sind : ℚ → ℚ) (rand : ℕ → ℕ) (width height : ℤ)
    (griddist opacity : ℚ) (st : List ℕ × ℕ) : List ℕ × ℕ :=
  let r := texPerlin2d cosd sind rand st.2 width height (truncInt griddist)
  (List.zipWith (accumulate opacity) st.1 r.1, r.2)

/-- The loop `while (griddist > 1.0f) { ...; griddist /= 2.0f; opacity /= 2.0f; }`
of `texPerlinGrad2d` (halving a `float` is exact). -/
def gradLoop (cosd sind : ℚ → ℚ) (rand : ℕ → ℕ) (width height : ℤ)
    (griddist opacity : ℚ) (st : List ℕ × ℕ) : List ℕ × ℕ :=
  if h : griddist > 1 then
    gradLoop cosd sind rand width height (griddist / 2) (opacity / 2)
      (octaveStep cosd sind rand width height griddist opacity st)
  else st
termination_by ⌈griddist⌉₊
decreasing_by
  have h1 : 1 < ⌈griddist⌉₊ := Nat.lt_ceil.mpr (by simpa using h)
  have h2 : griddist ≤ (⌈griddist⌉₊ : ℚ) := Nat.le_ceil griddist
  have h3 : ⌈griddist / 2⌉₊ ≤ ⌈griddist⌉₊ - 1 := by
    rw [Nat.ceil_le]
    have h4 : (2 : ℚ) ≤ (⌈griddist⌉₊ : ℚ) := by exact_mod_cast h1
    rw [Nat.cast_sub h1.le, Nat.cast_one]
    linarith
  omega

/-- Start value of `griddist` in `texPerlinGrad2d`: `minside / 10.0f`, with
`float minside = (width < height) ? width : height`. -/
def baseGriddist (width height : ℤ) : ℚ :=
  let minside : ℚ := f32 (if width < height then (width : ℚ) else (height : ℚ))
  f32 (minside / 10)

/-- Function `texPerlinGrad2d(width, height, buffer)`: the buffer at return. -/
def texPerlinGrad2d (cosd sind : ℚ → ℚ) (rand : ℕ → ℕ) (width height : ℤ) : List ℕ :=
  let buffer := List.replicate (3 * width * height).toNat 0
  (gradLoop cosd sind rand width height (baseGriddist width height) (1 / 2) (buffer, 0)).1

/-- The `float` that `texMarble2d` passes to `sinf` for pixel `(col, row)`;
`buffer` is the buffer at entry. `xy` is a sum of `float` terms, the product
`xy * 3.141592653` is a `double`, converted to `float` at the call. -/
def marbleArg (width height : ℤ) (buffer : List ℕ) (col row : ℕ) : ℚ :=
  let val := buffer.getD (3 * (row * width.toNat + col)) 0
  let valf := f32 (f32 (val : ℚ) / 255)
  let xy := f32 (f32 (f32 (f32 (f32 (col : ℚ) * 5) / f32 (width : ℚ)) +
    f32 (f32 (f32 (row : ℚ) * 5) / f32 (height : ℚ))) + f32 (5 * valf))
  f32 (f64 (xy * piD))

/-- Byte that `texMarble2d` stores in the three channels of pixel `(col, row)`. -/
def marbleByte (sinf : ℚ → ℚ) (width height : ℤ) (buffer : List ℕ) (col row : ℕ) : ℕ :=
  let sineval := |sinf (marbleArg width height buffer col row)|
  toU8 (f32 (sineval * 255))

/-- Function `texMarble2d(width, height, buffer)`: the buffer at return. -/
def texMarble2d (sinf : ℚ → ℚ) (width height : ℤ) (buffer : List ℕ) : List ℕ :=
  ((List.range height.toNat).flatMap fun row =>
    (List.range width.toNat).flatMap fun col =>
      let val := marbleByte sinf width height buffer col row
      [val, val, val]) ++ buffer.drop (3 * (height.toNat * width.toNat))

/-- Function `texGrad(x1, y1, x2, y2, x)`. -/
def texGrad (x1 y1 x2 y2 x : ℚ) : ℚ :=
  let r := f32 (f32 (x - x1) / f32 (x2 - x1))
  f32 (y1 + f32 (f32 (y2 - y1) * r))

/-- The three bytes `data[0], data[1], data[2]` that `texFireGradient2d` stores
for a pixel whose first byte is `val`. -/
def firePixel (val : ℕ) : List ℕ :=
  let valf : ℚ := f32 (f32 (val : ℚ) / 255)
  let rgb : ℚ × ℚ × ℚ :=
    if valf > f32 (6 / 10) then (0, 0, 0)
    else if valf > f32 (5 / 10) then (texGrad (f32 (6 / 10)) 0 (f32 (5 / 10)) 1 valf, 0, 0)
    else if valf > f32 (3 / 10) then (1, texGrad (f32 (5 / 10)) 0 (f32 (3 / 10)) 1 valf, 0)
    else (1, 1, texGrad (f32 (3 / 10)) 0 0 1 valf)
  [toU8 (f32 (rgb.2.2 * 255)), toU8 (f32 (rgb.2.1 * 255)), toU8 (f32 (rgb.1 * 255))]

/-- Function `texFireGradient2d(width, height, buffer)`: the buffer at return. -/
def texFireGradient2d (width height : ℤ) (buffer : List ℕ) : List ℕ :=
  ((List.range (width * height).toNat).flatMap fun i =>
    firePixel (buffer.getD (3 * i) 0)) ++ buffer.drop (3 * (width * height).toNat)

/-- A buffer of `n` pixels, three bytes each, whose three bytes agree on every
pixel. -/
def isGreyscale (n : ℕ) (buf : List ℕ) : Prop :=
  buf.length = 3 * n ∧
    ∀ p, p < n → buf[3 * p]? = buf[3 * p + 1]? ∧ buf[3 * p + 1]? = buf[3 * p + 2]?

instance (n : ℕ) (buf : List ℕ) : Decidable (isGreyscale n buf) := by
  unfold isGreyscale
  infer_instance

/-- The colour `(r, g, b)` the four-band table of the fire ramp gives an
intensity `v`, as the specification words it, with the interpolation
`y1 + (y2 - y1) * (x - x1) / (x2 - x1)`. -/
def specFireTable (v : ℚ) : ℚ × ℚ × ℚ :=
  let interp : ℚ → ℚ → ℚ → ℚ → ℚ → ℚ :=
    fun x1 y1 x2 y2 x => y1 + (y2 - y1) * (x - x1) / (x2 - x1)
  if v > 6 / 10 then (0, 0, 0)
  else if 5 / 10 < v ∧ v ≤ 6 / 10 then (interp (6 / 10) 0 (5 / 10) 1 v, 0, 0)
  else if 3 / 10 < v ∧ v ≤ 5 / 10 then (1, interp (5 / 10) 0 (3 / 10) 1 v, 0)
  else (1, 1, interp (3 / 10) 0 0 1 v)

/-- The bytes `(floor (255 * b), floor (255 * g), floor (255 * r))` of the
four-band table in exact arithmetic, for the input byte `val`. -/
def specFireBytes (val : ℕ) : List ℕ :=
  [⌊255 * (specFireTable ((val : ℚ) / 255)).2.2⌋₊,
    ⌊255 * (specFireTable ((val : ℚ) / 255)).2.1⌋₊,
    ⌊255 * (specFireTable ((val : ℚ) / 255)).1⌋₊]

/-- The input bytes for which a byte that `texFireGradient2d` stores is one
less than the byte of the exact table. -/
def fireLowValues : List ℕ :=
  [33, 36, 66, 69, 72, 75, 128, 129, 130, 131, 132, 133, 134, 135, 136, 137, 138, 139, 140,
    141, 142, 143, 144, 145, 146, 147, 148, 149, 150, 151, 152]

/-- Largest byte the accumulation of `texPerlinGrad2d` can hold after `j`
passes: the sum of `255 / 2 ^ k` (integer division) for `k = 1, ..., j`. -/
def octaveBound : ℕ → ℕ
  | 0 => 0
  | j + 1 => octaveBound j + 255 / 2 ^ (j + 1)

end FloatModel

section CheckedReads

/-- Read of entry `i` of a grid array of `grid.length` floats: `none` when `i`
is no position of the array. -/
def gridRead (grid : List ℚ) (i : ℤ) : Option ℚ :=
  if 0 ≤ i then grid[i.toNat]? else none

/-- Nested function `dot` of `texPerlin2d` over grid arrays of a given length:
`none` when one of its two reads falls outside the array. -/
def dotChk (gridnx : ℤ) (gridx gridy : List ℚ) (ix iy : ℤ) (x y : ℚ) : Option ℚ :=
  let dx := f32 (x - f32 (ix : ℚ))
  let dy := f32 (y - f32 (iy : ℚ))
  (gridRead gridx (gridIndex gridnx ix iy)).bind fun gx =>
    (gridRead gridy (gridIndex gridnx ix iy)).bind fun gy =>
      some (f32 (f32 (dx * gx) + f32 (dy * gy)))

/-- Body of `perlin2` over grid arrays of a given length, the four calls of
`dot` in the order of the source: `none` when a read falls outside the arrays. -/
def perlinCellChk (cosd : ℚ → ℚ) (gridnx : ℤ) (gridx gridy : List ℚ)
    (x0 y0 : ℤ) (x y : ℚ) : Option ℚ :=
  let x1 := x0 + 1
  let y1 := y0 + 1
  let sx := f32 (x - f32 (x0 : ℚ))
  let sy := f32 (y - f32 (y0 : ℚ))
  (dotChk gridnx gridx gridy x0 y0 x y).bind fun n00 =>
    (dotChk gridnx gridx gridy x1 y0 x y).bind fun n10 =>
      (dotChk gridnx gridx gridy x0 y1 x y).bind fun n01 =>
        (dotChk gridnx gridx gridy x1 y1 x y).bind fun n11 =>
          some (lerpF cosd (lerpF cosd n00 n10 sx) (lerpF cosd n01 n11 sx) sy)

/-- Nested function `perlin2` of `texPerlin2d` over grid arrays of a given
length. -/
def perlin2Chk (cosd : ℚ → ℚ) (gridnx : ℤ) (gridx gridy : List ℚ) (x y : ℚ) : Option ℚ :=
  perlinCellChk cosd gridnx gridx gridy (truncInt x) (truncInt y) x y

end CheckedReads

section FloatLemmas

theorem log2Fuel_spec (fuel n : ℕ) (hf : n ≤ fuel) (hn : n ≠ 0) :
    2 ^ log2Fuel fuel n ≤ n ∧ n < 2 ^ (log2Fuel fuel n + 1) := by
  induction fuel generalizing n with
  | zero => omega
  | succ fuel ih =>
    unfold log2Fuel
    by_cases h : n < 2
    · simp only [h, if_true]
      constructor <;> omega
    · simp only [h, if_false]
      have h2 : n / 2 ≤ fuel := by omega
      have h3 : n / 2 ≠ 0 := by omega
      obtain ⟨a, b⟩ := ih (n / 2) h2 h3
      constructor
      · rw [pow_succ]; omega
      · rw [pow_succ]; omega

theorem natLog2_spec (n : ℕ) (hn : n ≠ 0) :
    2 ^ natLog2 n ≤ n ∧ n < 2 ^ (natLog2 n + 1) :=
  log2Fuel_spec n n (le_refl _) hn

theorem pow2_eq (e : ℤ) : pow2 e = (2 : ℚ) ^ e := by
  unfold pow2
  by_cases h : 0 ≤ e
  · simp only [h, if_true]
    lift e to ℕ using h
    simp
  · simp only [h, if_false]
    push_neg at h
    obtain ⟨n, rfl⟩ : ∃ n : ℕ, e = -(n : ℤ) := ⟨(-e).toNat, by omega⟩
    rw [neg_neg, Int.toNat_natCast, zpow_neg, zpow_natCast]
    push_cast
    rw [one_div]

theorem pow2_pos (e : ℤ) : 0 < pow2 e := by
  rw [pow2_eq]; positivity

theorem ilog2_spec (x : ℚ) (hx : x ≠ 0) :
    (2 : ℚ) ^ ilog2 x ≤ |x| ∧ |x| < (2 : ℚ) ^ (ilog2 x + 1) := by
  have hnum : x.num.natAbs ≠ 0 := by
    simpa [Int.natAbs_eq_zero] using hx
  have hden : x.den ≠ 0 := x.den_nz
  obtain ⟨a1, a2⟩ := natLog2_spec _ hnum
  obtain ⟨b1, b2⟩ := natLog2_spec _ hden
  have habs : |x| = (x.num.natAbs : ℚ) / (x.den : ℚ) := by
    conv_lhs => rw [← Rat.num_div_den x]
    rw [abs_div, Nat.abs_cast, Nat.cast_natAbs, Int.cast_abs]
  have hdpos : (0 : ℚ) < (x.den : ℚ) := by exact_mod_cast Nat.pos_of_ne_zero hden
  set la := natLog2 x.num.natAbs
  set lb := natLog2 x.den
  have A1 : (2 : ℚ) ^ (la : ℤ) ≤ (x.num.natAbs : ℚ) := by
    rw [zpow_natCast]; exact_mod_cast a1
  have A2 : (x.num.natAbs : ℚ) < (2 : ℚ) ^ ((la : ℤ) + 1) := by
    rw [show ((la : ℤ) + 1) = ((la + 1 : ℕ) : ℤ) by push_cast; ring, zpow_natCast]
    exact_mod_cast a2
  have B1 : (2 : ℚ) ^ (lb : ℤ) ≤ (x.den : ℚ) := by
    rw [zpow_natCast]; exact_mod_cast b1
  have B2 : (x.den : ℚ) < (2 : ℚ) ^ ((lb : ℤ) + 1) := by
    rw [show ((lb : ℤ) + 1) = ((lb + 1 : ℕ) : ℤ) by push_cast; ring, zpow_natCast]
    exact_mod_cast b2
  have two : (0 : ℚ) < 2 := by norm_num
  have up : |x| < (2 : ℚ) ^ ((la : ℤ) - (lb : ℤ) + 1) := by
    rw [habs, div_lt_iff₀ hdpos]
    calc (x.num.natAbs : ℚ) < (2 : ℚ) ^ ((la : ℤ) + 1) := A2
      _ = (2 : ℚ) ^ ((la : ℤ) - (lb : ℤ) + 1) * (2 : ℚ) ^ (lb : ℤ) := by
        rw [← zpow_add₀ two.ne']; congr 1; ring
      _ ≤ (2 : ℚ) ^ ((la : ℤ) - (lb : ℤ) + 1) * (x.den : ℚ) :=
        mul_le_mul_of_nonneg_left B1 (by positivity)
  have low : (2 : ℚ) ^ ((la : ℤ) - (lb : ℤ) - 1) ≤ |x| := by
    rw [habs, le_div_iff₀ hdpos]
    calc (2 : ℚ) ^ ((la : ℤ) - (lb : ℤ) - 1) * (x.den : ℚ)
        ≤ (2 : ℚ) ^ ((la : ℤ) - (lb : ℤ) - 1) * (2 : ℚ) ^ ((lb : ℤ) + 1) :=
          mul_le_mul_of_nonneg_left B2.le (by positivity)
      _ = (2 : ℚ) ^ (la : ℤ) := by
        rw [← zpow_add₀ two.ne']; congr 1; ring
      _ ≤ (x.num.natAbs : ℚ) := A1
  unfold ilog2
  simp only
  by_cases h : pow2 ((la : ℤ) - (lb : ℤ)) ≤ |x|
  · simp only [h, if_true]
    exact ⟨by rw [← pow2_eq]; exact h, up⟩
  · simp only [h, if_false]
    refine ⟨low, ?_⟩
    rw [sub_add_cancel, ← pow2_eq]
    exact not_le.mp h


theorem roundHalfEven_intCast (n : ℤ) : roundHalfEven (n : ℚ) = n := by
  unfold roundHalfEven
  simp

theorem roundHalfEven_mono {a b : ℚ} (h : a ≤ b) : roundHalfEven a ≤ roundHalfEven b := by
  have hf : ⌊a⌋ ≤ ⌊b⌋ := Int.floor_mono h
  have ha0 := Int.floor_le a
  have hb0 := Int.floor_le b
  have ha1 := Int.lt_floor_add_one a
  have hb1 := Int.lt_floor_add_one b
  have lo : ∀ c : ℚ, ⌊c⌋ ≤ roundHalfEven c := by
    intro c; unfold roundHalfEven; simp only
    split_ifs <;> omega
  have hi : ∀ c : ℚ, roundHalfEven c ≤ ⌊c⌋ + 1 := by
    intro c; unfold roundHalfEven; simp only
    split_ifs <;> omega
  rcases hf.lt_or_eq with hlt | heq
  · calc roundHalfEven a ≤ ⌊a⌋ + 1 := hi a
      _ ≤ ⌊b⌋ := hlt
      _ ≤ roundHalfEven b := lo b
  · have hr : a - ⌊a⌋ ≤ b - ⌊b⌋ := by rw [heq]; linarith
    unfold roundHalfEven
    simp only
    rw [heq] at hr ⊢
    split_ifs <;> first | omega | (exfalso; linarith)

theorem zpow_two_split (a b : ℤ) (h : b ≤ a) :
    (2 : ℚ) ^ a = (((2 ^ (a - b).toNat : ℕ) : ℤ) : ℚ) * (2 : ℚ) ^ b := by
  have e : a = ((a - b).toNat : ℤ) + b := by
    rw [Int.toNat_of_nonneg (by omega)]; ring
  conv_lhs => rw [e]
  rw [zpow_add₀ (by norm_num : (2 : ℚ) ≠ 0), zpow_natCast]
  push_cast
  rfl

/-- Exponent of the rounding quantum of `x`. -/
theorem roundTo_of_ne (p : ℕ) (emin : ℤ) (x : ℚ) (hx : x ≠ 0) :
    roundTo p emin x =
      (roundHalfEven (x / (2 : ℚ) ^ (max (ilog2 x - ((p : ℤ) - 1)) emin)) : ℚ) *
        (2 : ℚ) ^ (max (ilog2 x - ((p : ℤ) - 1)) emin) := by
  unfold roundTo
  simp only [hx, if_false, pow2_eq]

theorem roundTo_zero (p : ℕ) (emin : ℤ) : roundTo p emin 0 = 0 := by
  unfold roundTo; simp

theorem roundTo_le_of_mul (p : ℕ) (emin : ℤ) (x : ℚ) (N : ℤ) (hx : x ≠ 0)
    (h : x ≤ (N : ℚ) * (2 : ℚ) ^ (max (ilog2 x - ((p : ℤ) - 1)) emin)) :
    roundTo p emin x ≤ (N : ℚ) * (2 : ℚ) ^ (max (ilog2 x - ((p : ℤ) - 1)) emin) := by
  rw [roundTo_of_ne p emin x hx]
  have hq : (0 : ℚ) < (2 : ℚ) ^ (max (ilog2 x - ((p : ℤ) - 1)) emin) := by positivity
  have h1 : x / (2 : ℚ) ^ (max (ilog2 x - ((p : ℤ) - 1)) emin) ≤ (N : ℚ) := by
    rw [div_le_iff₀ hq]; exact h
  have h2 := roundHalfEven_mono h1
  rw [roundHalfEven_intCast] at h2
  exact mul_le_mul_of_nonneg_right (by exact_mod_cast h2) hq.le

theorem roundTo_ge_of_mul (p : ℕ) (emin : ℤ) (x : ℚ) (N : ℤ) (hx : x ≠ 0)
    (h : (N : ℚ) * (2 : ℚ) ^ (max (ilog2 x - ((p : ℤ) - 1)) emin) ≤ x) :
    (N : ℚ) * (2 : ℚ) ^ (max (ilog2 x - ((p : ℤ) - 1)) emin) ≤ roundTo p emin x := by
  rw [roundTo_of_ne p emin x hx]
  have hq : (0 : ℚ) < (2 : ℚ) ^ (max (ilog2 x - ((p : ℤ) - 1)) emin) := by positivity
  have h1 : (N : ℚ) ≤ x / (2 : ℚ) ^ (max (ilog2 x - ((p : ℤ) - 1)) emin) := by
    rw [le_div_iff₀ hq]; exact h
  have h2 := roundHalfEven_mono h1
  rw [roundHalfEven_intCast] at h2
  exact mul_le_mul_of_nonneg_right (by exact_mod_cast h2) hq.le

theorem roundTo_nonneg (p : ℕ) (emin : ℤ) (x : ℚ) (hx : 0 ≤ x) : 0 ≤ roundTo p emin x := by
  by_cases h0 : x = 0
  · rw [h0, roundTo_zero]
  · have := roundTo_ge_of_mul p emin x 0 h0 (by simpa using hx)
    simpa using this

theorem roundTo_nonpos (p : ℕ) (emin : ℤ) (x : ℚ) (hx : x ≤ 0) : roundTo p emin x ≤ 0 := by
  by_cases h0 : x = 0
  · rw [h0, roundTo_zero]
  · have := roundTo_le_of_mul p emin x 0 h0 (by simpa using hx)
    simpa using this

/-- A value `M * 2 ^ t` with `|M| < 2 ^ p` and `emin ≤ t` is representable: rounding
leaves it unchanged. -/
theorem roundTo_of_rep (p : ℕ) (emin : ℤ) (M t : ℤ) (hM : |M| < 2 ^ p) (ht : emin ≤ t) :
    roundTo p emin ((M : ℚ) * (2 : ℚ) ^ t) = (M : ℚ) * (2 : ℚ) ^ t := by
  by_cases h0 : (M : ℚ) * (2 : ℚ) ^ t = 0
  · rw [h0, roundTo_zero]
  · obtain ⟨s1, _⟩ := ilog2_spec _ h0
    have hMq : |(M : ℚ)| < (2 : ℚ) ^ (p : ℤ) := by
      rw [zpow_natCast]; exact_mod_cast hM
    have habs : |(M : ℚ) * (2 : ℚ) ^ t| < (2 : ℚ) ^ ((p : ℤ) + t) := by
      rw [abs_mul, abs_of_pos (by positivity : (0 : ℚ) < (2 : ℚ) ^ t),
        zpow_add₀ (by norm_num : (2 : ℚ) ≠ 0)]
      exact mul_lt_mul_of_pos_right hMq (by positivity)
    have hlt : ilog2 ((M : ℚ) * (2 : ℚ) ^ t) < (p : ℤ) + t :=
      (zpow_lt_zpow_iff_right₀ (by norm_num : (1 : ℚ) < 2)).mp (lt_of_le_of_lt s1 habs)
    have hj : max (ilog2 ((M : ℚ) * (2 : ℚ) ^ t) - ((p : ℤ) - 1)) emin ≤ t :=
      max_le (by omega) ht
    have hsplit := zpow_two_split t _ hj
    have e : (M : ℚ) * (2 : ℚ) ^ t =
        ((M * ((2 ^ (t - max (ilog2 ((M : ℚ) * (2 : ℚ) ^ t) - ((p : ℤ) - 1)) emin).toNat : ℕ)
          : ℤ) : ℤ) : ℚ) *
          (2 : ℚ) ^ (max (ilog2 ((M : ℚ) * (2 : ℚ) ^ t) - ((p : ℤ) - 1)) emin) := by
      conv_lhs => rw [hsplit]
      push_cast
      ring
    apply le_antisymm
    · conv_rhs => rw [e]
      exact roundTo_le_of_mul p emin _ _ h0 e.le
    · conv_lhs => rw [e]
      exact roundTo_ge_of_mul p emin _ _ h0 e.ge


theorem ilog2_le_of_abs_le {x y : ℚ} (hx : x ≠ 0) (hy : y ≠ 0) (h : |x| ≤ |y|) :
    ilog2 x ≤ ilog2 y := by
  obtain ⟨a1, _⟩ := ilog2_spec x hx
  obtain ⟨_, b2⟩ := ilog2_spec y hy
  have : (2 : ℚ) ^ ilog2 x < (2 : ℚ) ^ (ilog2 y + 1) := lt_of_le_of_lt (a1.trans h) b2
  have := (zpow_lt_zpow_iff_right₀ (by norm_num : (1 : ℚ) < 2)).mp this
  omega

theorem roundTo_mono_pos (p : ℕ) (emin : ℤ) (hp : 1 ≤ p) {x y : ℚ} (hx : 0 < x) (h : x ≤ y) :
    roundTo p emin x ≤ roundTo p emin y := by
  have hy : 0 < y := lt_of_lt_of_le hx h
  have hx0 := hx.ne'
  have hy0 := hy.ne'
  have he : ilog2 x ≤ ilog2 y :=
    ilog2_le_of_abs_le hx0 hy0 (by rw [abs_of_pos hx, abs_of_pos hy]; exact h)
  obtain ⟨_, x2⟩ := ilog2_spec x hx0
  obtain ⟨y1, _⟩ := ilog2_spec y hy0
  rw [abs_of_pos hx] at x2
  rw [abs_of_pos hy] at y1
  rcases (max_le_max (sub_le_sub_right he ((p : ℤ) - 1)) (le_refl emin)).lt_or_eq with hj | hj
  · -- the quantum of `y` is coarser: `2 ^ ilog2 y` separates the two roundings
    have hjy : max (ilog2 y - ((p : ℤ) - 1)) emin = ilog2 y - ((p : ℤ) - 1) := by
      rcases le_total (ilog2 y - ((p : ℤ) - 1)) emin with c | c
      · exfalso
        rw [max_eq_right c] at hj
        exact absurd hj (not_lt.mpr (le_max_right _ _))
      · exact max_eq_left c
    have hlt : ilog2 x < ilog2 y := by
      rw [hjy] at hj
      have := le_max_left (ilog2 x - ((p : ℤ) - 1)) emin
      omega
    have hxT : x ≤ (2 : ℚ) ^ ilog2 y :=
      x2.le.trans (zpow_le_zpow_right₀ (by norm_num) (by omega))
    have s1 := zpow_two_split (ilog2 y) (max (ilog2 x - ((p : ℤ) - 1)) emin)
      (by rw [hjy] at hj; have : (1 : ℤ) ≤ (p : ℤ) := by exact_mod_cast hp
          omega)
    have s2 := zpow_two_split (ilog2 y) (max (ilog2 y - ((p : ℤ) - 1)) emin)
      (by rw [hjy]; have : (1 : ℤ) ≤ (p : ℤ) := by exact_mod_cast hp
          omega)
    calc roundTo p emin x ≤ (2 : ℚ) ^ ilog2 y := by
          rw [s1] at hxT ⊢
          exact roundTo_le_of_mul p emin x _ hx0 hxT
      _ ≤ roundTo p emin y := by
          rw [s2] at y1 ⊢
          exact roundTo_ge_of_mul p emin y _ hy0 y1
  · rw [roundTo_of_ne p emin x hx0, roundTo_of_ne p emin y hy0, hj]
    have hq : (0 : ℚ) < (2 : ℚ) ^ (max (ilog2 y - ((p : ℤ) - 1)) emin) := by positivity
    have := roundHalfEven_mono (div_le_div_of_nonneg_right h hq.le)
    exact mul_le_mul_of_nonneg_right (by exact_mod_cast this) hq.le

theorem roundTo_mono_neg (p : ℕ) (emin : ℤ) (hp : 1 ≤ p) {x y : ℚ} (hy : y < 0) (h : x ≤ y) :
    roundTo p emin x ≤ roundTo p emin y := by
  have hx : x < 0 := lt_of_le_of_lt h hy
  have hx0 := hx.ne
  have hy0 := hy.ne
  have he : ilog2 y ≤ ilog2 x :=
    ilog2_le_of_abs_le hy0 hx0 (by rw [abs_of_neg hx, abs_of_neg hy]; linarith)
  obtain ⟨x1, _⟩ := ilog2_spec x hx0
  obtain ⟨_, y2⟩ := ilog2_spec y hy0
  rw [abs_of_neg hx] at x1
  rw [abs_of_neg hy] at y2
  rcases (max_le_max (sub_le_sub_right he ((p : ℤ) - 1)) (le_refl emin)).lt_or_eq with hj | hj
  · have hjx : max (ilog2 x - ((p : ℤ) - 1)) emin = ilog2 x - ((p : ℤ) - 1) := by
      rcases le_total (ilog2 x - ((p : ℤ) - 1)) emin with c | c
      · exfalso
        rw [max_eq_right c] at hj
        exact absurd hj (not_lt.mpr (le_max_right _ _))
      · exact max_eq_left c
    have hlt : ilog2 y < ilog2 x := by
      rw [hjx] at hj
      have := le_max_left (ilog2 y - ((p : ℤ) - 1)) emin
      omega
    have hyT : -((2 : ℚ) ^ ilog2 x) ≤ y := by
      have := zpow_le_zpow_right₀ (by norm_num : (1 : ℚ) ≤ 2) (by omega : ilog2 y + 1 ≤ ilog2 x)
      linarith
    have hxT : x ≤ -((2 : ℚ) ^ ilog2 x) := by linarith
    have s1 := zpow_two_split (ilog2 x) (max (ilog2 x - ((p : ℤ) - 1)) emin)
      (by rw [hjx]; have : (1 : ℤ) ≤ (p : ℤ) := by exact_mod_cast hp
          omega)
    have s2 := zpow_two_split (ilog2 x) (max (ilog2 y - ((p : ℤ) - 1)) emin)
      (by rw [hjx] at hj; have : (1 : ℤ) ≤ (p : ℤ) := by exact_mod_cast hp
          omega)
    calc roundTo p emin x ≤ -((2 : ℚ) ^ ilog2 x) := by
          rw [s1, ← neg_mul, ← Int.cast_neg] at hxT ⊢
          exact roundTo_le_of_mul p emin x _ hx0 hxT
      _ ≤ roundTo p emin y := by
          rw [s2, ← neg_mul, ← Int.cast_neg] at hyT ⊢
          exact roundTo_ge_of_mul p emin y _ hy0 hyT
  · rw [roundTo_of_ne p emin x hx0, roundTo_of_ne p emin y hy0, ← hj]
    have hq : (0 : ℚ) < (2 : ℚ) ^ (max (ilog2 y - ((p : ℤ) - 1)) emin) := by positivity
    have := roundHalfEven_mono (div_le_div_of_nonneg_right h hq.le)
    exact mul_le_mul_of_nonneg_right (by exact_mod_cast this) hq.le

/-- Rounding to nearest is monotone. -/
theorem roundTo_mono (p : ℕ) (emin : ℤ) (hp : 1 ≤ p) {x y : ℚ} (h : x ≤ y) :
    roundTo p emin x ≤ roundTo p emin y := by
  rcases lt_trichotomy x 0 with hx | hx | hx
  · rcases lt_or_le y 0 with hy | hy
    · exact roundTo_mono_neg p emin hp hy h
    · exact (roundTo_nonpos p emin x hx.le).trans (roundTo_nonneg p emin y hy)
  · rw [hx, roundTo_zero]
    exact roundTo_nonneg p emin y (hx ▸ h)
  · exact roundTo_mono_pos p emin hp hx h

theorem f32_mono {x y : ℚ} (h : x ≤ y) : f32 x ≤ f32 y := roundTo_mono 24 (-149) (by norm_num) h

theorem f64_mono {x y : ℚ} (h : x ≤ y) : f64 x ≤ f64 y := roundTo_mono 53 (-1074) (by norm_num) h

theorem f32_zero : f32 0 = 0 := roundTo_zero _ _

theorem f64_zero : f64 0 = 0 := roundTo_zero _ _

/-- Integers of absolute value at most `2 ^ 24` are `float` values. -/
theorem f32_intCast (n : ℤ) (h : |n| ≤ 2 ^ 24) : f32 (n : ℚ) = n := by
  rcases h.lt_or_eq with hlt | heq
  · have := roundTo_of_rep 24 (-149) n 0 hlt (by norm_num)
    simpa [f32] using this
  · have hn : n = 16777216 ∨ n = -16777216 := by
      rcases abs_eq (by norm_num : (0 : ℤ) ≤ 2 ^ 24) |>.mp heq with h1 | h1
      · left; rw [h1]; norm_num
      · right; rw [h1]; norm_num
    rcases hn with h1 | h1
    · have := roundTo_of_rep 24 (-149) (2 ^ 23) 1 (by norm_num) (by norm_num)
      rw [h1]
      norm_num at this ⊢
      exact this
    · have := roundTo_of_rep 24 (-149) (-(2 ^ 23)) 1 (by norm_num) (by norm_num)
      rw [h1]
      norm_num at this ⊢
      exact this

end FloatLemmas

section Numeric

variable {K : Type} [LinearOrderedField K] [FloorRing K]

theorem floor_intCast_div (a b : ℤ) (hb : 0 < b) : ⌊(a : K) / (b : K)⌋ = a / b := by
  have hbK : (0 : K) < (b : K) := by exact_mod_cast hb
  rw [Int.floor_eq_iff]
  constructor
  · rw [le_div_iff₀ hbK]
    have : a / b * b ≤ a := Int.ediv_mul_le a hb.ne'
    exact_mod_cast this
  · rw [div_lt_iff₀ hbK]
    have : a < (a / b + 1) * b := Int.lt_ediv_add_one_mul_self a hb
    exact_mod_cast this

theorem truncInt_of_nonneg {x : K} (hx : 0 ≤ x) : truncInt x = ⌊x⌋ := by
  simp [truncInt, hx]

theorem truncInt_intCast (n : ℤ) : truncInt (n : K) = n := by
  unfold truncInt
  split_ifs <;> simp

theorem toU8_lt (x : K) : toU8 x < 256 := by
  unfold toU8
  have h1 : truncInt x % 256 < 256 := Int.emod_lt_of_pos _ (by norm_num)
  have h2 : 0 ≤ truncInt x % 256 := Int.emod_nonneg _ (by norm_num)
  omega

theorem toU8_eq_floor {x : K} (h0 : 0 ≤ x) (h1 : x < 256) : toU8 x = ⌊x⌋₊ := by
  have hf0 : 0 ≤ ⌊x⌋ := Int.floor_nonneg.mpr h0
  have hf1 : ⌊x⌋ < 256 := Int.floor_lt.mpr (by exact_mod_cast h1)
  rw [toU8, truncInt_of_nonneg h0, Int.emod_eq_of_lt hf0 hf1, Int.floor_toNat]

theorem toU8_natCast_mul_inv_pow (t k : ℕ) (ht : t ≤ 255) :
    toU8 ((t : K) * (1 / 2 ^ k)) = t / 2 ^ k := by
  have h0 : (0 : K) ≤ (t : K) * (1 / 2 ^ k) := by positivity
  have h1 : (t : K) * (1 / 2 ^ k) = ((t : ℤ) : K) / (((2 ^ k : ℕ) : ℤ) : K) := by
    push_cast; ring
  have hpos : (0 : ℤ) < ((2 ^ k : ℕ) : ℤ) := by positivity
  rw [toU8, truncInt_of_nonneg h0, h1, floor_intCast_div _ _ hpos]
  have h2 : t / 2 ^ k ≤ t := Nat.div_le_self _ _
  have h3 : ((t : ℤ) / ((2 ^ k : ℕ) : ℤ)) = ((t / 2 ^ k : ℕ) : ℤ) := by push_cast; rfl
  rw [h3]
  generalize t / 2 ^ k = q at h2 ⊢
  omega

theorem accumulate_inv_pow (b t k : ℕ) (hb : b ≤ 255) (ht : t ≤ 255) :
    accumulate (1 / 2 ^ k : K) b t = min 255 (b + t / 2 ^ k) := by
  unfold accumulate
  simp only [toU8_natCast_mul_inv_pow t k ht]
  have h2 : t / 2 ^ k ≤ t := Nat.div_le_self _ _
  generalize t / 2 ^ k = q at h2 ⊢
  split_ifs with h
  · omega
  · omega

end Numeric

section Buffers

theorem length_flatMap_range_const {α : Type} (m : ℕ) (f : ℕ → List α) (n : ℕ)
    (hf : ∀ i, i < n → (f i).length = m) :
    ((List.range n).flatMap f).length = n * m := by
  induction n with
  | zero => simp
  | succ n ih =>
    rw [List.range_succ, List.flatMap_append, List.length_append,
      ih (fun i hi => hf i (Nat.lt_succ_of_lt hi))]
    simp [hf n (Nat.lt_succ_self n), Nat.succ_mul]

theorem getElem?_flatMap_range_const {α : Type} (m : ℕ) (f : ℕ → List α) (n : ℕ)
    (hf : ∀ i, i < n → (f i).length = m) (i j : ℕ) (hi : i < n) (hj : j < m) :
    ((List.range n).flatMap f)[i * m + j]? = (f i)[j]? := by
  induction n with
  | zero => omega
  | succ n ih =>
    have hlen := length_flatMap_range_const m f n (fun i hi => hf i (Nat.lt_succ_of_lt hi))
    rw [List.range_succ, List.flatMap_append]
    rcases Nat.lt_succ_iff_lt_or_eq.mp hi with h | h
    · have hlt : i * m + j < ((List.range n).flatMap f).length := by
        rw [hlen]
        calc i * m + j < i * m + m := by omega
          _ = (i + 1) * m := by ring
          _ ≤ n * m := Nat.mul_le_mul_right m h
      rw [List.getElem?_append_left hlt]
      exact ih (fun i hi => hf i (Nat.lt_succ_of_lt hi)) h
    · subst h
      have hge : ((List.range i).flatMap f).length ≤ i * m + j := by rw [hlen]; omega
      rw [List.getElem?_append_right hge, hlen]
      simp

/-- Byte `c` of pixel `(col, row)` in a buffer written row by row, pixel by
pixel, three bytes per pixel. -/
theorem getElem?_pixels (f : ℕ → ℕ → List ℕ) (W H : ℕ)
    (hf : ∀ row col, (f row col).length = 3) (row col c : ℕ)
    (hrow : row < H) (hcol : col < W) (hc : c < 3) :
    ((List.range H).flatMap fun row => (List.range W).flatMap fun col => f row col)[
      3 * (row * W + col) + c]? = (f row col)[c]? := by
  have hin : ∀ r, r < H → ((List.range W).flatMap fun col => f r col).length = W * 3 :=
    fun r _ => length_flatMap_range_const 3 (f r) W (fun i _ => hf r i)
  have hidx : 3 * (row * W + col) + c = row * (W * 3) + (col * 3 + c) := by ring
  have hlt : col * 3 + c < W * 3 := by omega
  rw [hidx, getElem?_flatMap_range_const (W * 3) _ H hin row (col * 3 + c) hrow hlt,
    getElem?_flatMap_range_const 3 (f row) W (fun i _ => hf row i) col c hcol hc]

theorem length_pixels (f : ℕ → ℕ → List ℕ) (W H : ℕ)
    (hf : ∀ row col, (f row col).length = 3) :
    ((List.range H).flatMap fun row => (List.range W).flatMap fun col => f row col).length
      = 3 * (H * W) := by
  have hin : ∀ r, r < H → ((List.range W).flatMap fun col => f r col).length = W * 3 :=
    fun r _ => length_flatMap_range_const 3 (f r) W (fun i _ => hf r i)
  rw [length_flatMap_range_const (W * 3) _ H hin]
  ring

theorem isGreyscale_pixels (g : ℕ → ℕ → ℕ) (W H : ℕ) :
    isGreyscale (H * W)
      ((List.range H).flatMap fun row => (List.range W).flatMap fun col =>
        [g row col, g row col, g row col]) := by
  refine ⟨length_pixels (fun row col => [g row col, g row col, g row col]) W H
    (fun _ _ => rfl), ?_⟩
  intro p hp
  have hW : 0 < W := by
    rcases Nat.eq_zero_or_pos W with h | h
    · subst h; simp at hp
    · exact h
  have hrow : p / W < H := by
    rw [Nat.div_lt_iff_lt_mul hW]; exact hp
  have hcol : p % W < W := Nat.mod_lt _ hW
  have hp' : p = p / W * W + p % W := by
    rw [Nat.mul_comm]; exact (Nat.div_add_mod p W).symm
  have key := fun c hc => getElem?_pixels (fun row col => [g row col, g row col, g row col])
    W H (fun _ _ => rfl) (p / W) (p % W) c hrow hcol hc
  rw [← hp'] at key
  have k0 := key 0 (by norm_num)
  have k1 := key 1 (by norm_num)
  have k2 := key 2 (by norm_num)
  simp only [Nat.add_zero] at k0
  rw [k0, k1, k2]
  simp

theorem isGreyscale_replicate (n a : ℕ) : isGreyscale n (List.replicate (3 * n) a) := by
  refine ⟨List.length_replicate _ _, ?_⟩
  intro p hp
  have h0 : 3 * p < 3 * n := by omega
  have h1 : 3 * p + 1 < 3 * n := by omega
  have h2 : 3 * p + 2 < 3 * n := by omega
  simp [List.getElem?_replicate, h0, h1, h2]

theorem isGreyscale_zipWith (f : ℕ → ℕ → ℕ) (n : ℕ) (a b : List ℕ)
    (ha : isGreyscale n a) (hb : isGreyscale n b) : isGreyscale n (List.zipWith f a b) := by
  refine ⟨by simp [List.length_zipWith, ha.1, hb.1], ?_⟩
  intro p hp
  have ha' := ha.2 p hp
  have hb' := hb.2 p hp
  simp only [List.getElem?_zipWith]
  rw [ha'.1, hb'.1, ha'.2, hb'.2]
  simp

end Buffers

section Octaves

theorem texPerlin2d_isGreyscale (cosd sind : ℚ → ℚ) (rand : ℕ → ℕ) (off : ℕ)
    (width height griddist : ℤ) :
    isGreyscale (height.toNat * width.toNat)
      (texPerlin2d cosd sind rand off width height griddist).1 := by
  unfold texPerlin2d
  exact isGreyscale_pixels _ _ _

theorem texPerlin2d_getElem? (cosd sind : ℚ → ℚ) (rand : ℕ → ℕ) (off : ℕ)
    (width height griddist : ℤ) (row col c : ℕ)
    (hrow : row < height.toNat) (hcol : col < width.toNat) (hc : c < 3) :
    (texPerlin2d cosd sind rand off width height griddist).1[
        3 * (row * width.toNat + col) + c]? =
      some (perlinByte cosd (gridSize width griddist)
        (fun i => f32 (cosd (gridAngleF (rand (off + i.toNat)))))
        (fun i => f32 (sind (gridAngleF (rand (off + i.toNat))))) griddist col row) := by
  unfold texPerlin2d
  simp only
  rw [getElem?_pixels (fun row col =>
    [perlinByte cosd (gridSize width griddist)
        (fun i => f32 (cosd (gridAngleF (rand (off + i.toNat)))))
        (fun i => f32 (sind (gridAngleF (rand (off + i.toNat))))) griddist col row,
      perlinByte cosd (gridSize width griddist)
        (fun i => f32 (cosd (gridAngleF (rand (off + i.toNat)))))
        (fun i => f32 (sind (gridAngleF (rand (off + i.toNat))))) griddist col row,
      perlinByte cosd (gridSize width griddist)
        (fun i => f32 (cosd (gridAngleF (rand (off + i.toNat)))))
        (fun i => f32 (sind (gridAngleF (rand (off + i.toNat))))) griddist col row])
    _ _ (fun _ _ => rfl) row col c hrow hcol hc]
  interval_cases c <;> rfl

theorem texPerlin2d_mem_lt (cosd sind : ℚ → ℚ) (rand : ℕ → ℕ) (off : ℕ)
    (width height griddist : ℤ) (t : ℕ)
    (ht : t ∈ (texPerlin2d cosd sind rand off width height griddist).1) : t < 256 := by
  unfold texPerlin2d at ht
  simp only [List.mem_flatMap, List.mem_range, List.mem_cons, List.mem_singleton,
    List.not_mem_nil, or_false, or_self] at ht
  obtain ⟨row, _, col, _, rfl⟩ := ht
  exact toU8_lt _

theorem gradOctaves_unfold {K : Type} [LinearOrderedField K] [FloorRing K] (g o : K) :
    gradOctaves g o = if g > 1 then (g, o) :: gradOctaves (g / 2) (o / 2) else [] := by
  rw [gradOctaves]
  split_ifs <;> rfl

theorem gradLoop_unfold (cosd sind : ℚ → ℚ) (rand : ℕ → ℕ) (width height : ℤ)
    (g o : ℚ) (st : List ℕ × ℕ) :
    gradLoop cosd sind rand width height g o st =
      if g > 1 then gradLoop cosd sind rand width height (g / 2) (o / 2)
        (octaveStep cosd sind rand width height g o st) else st := by
  rw [gradLoop]
  split_ifs <;> rfl

theorem ceil_half_lt {K : Type} [LinearOrderedField K] [FloorRing K] {g : K} (h : g > 1) : ⌈g / 2⌉₊ < ⌈g⌉₊ := by
  have h1 : 1 < ⌈g⌉₊ := Nat.lt_ceil.mpr (by simpa using h)
  have h2 : g ≤ (⌈g⌉₊ : K) := Nat.le_ceil g
  have h3 : ⌈g / 2⌉₊ ≤ ⌈g⌉₊ - 1 := by
    rw [Nat.ceil_le]
    have h4 : (2 : K) ≤ (⌈g⌉₊ : K) := by exact_mod_cast h1
    rw [Nat.cast_sub h1.le, Nat.cast_one]
    linarith
  omega

/-- The `while` loop of `texPerlinGrad2d` runs `octaveStep` once for each entry
of `gradOctaves`, in order. -/
theorem gradLoop_eq_foldl (cosd sind : ℚ → ℚ) (rand : ℕ → ℕ) (width height : ℤ)
    (g o : ℚ) (st : List ℕ × ℕ) :
    gradLoop cosd sind rand width height g o st =
      (gradOctaves g o).foldl
        (fun s p => octaveStep cosd sind rand width height p.1 p.2 s) st := by
  generalize hn : ⌈g⌉₊ = n
  induction n using Nat.strong_induction_on generalizing g o st with
  | _ n ih =>
    rw [gradLoop_unfold, gradOctaves_unfold]
    by_cases h : g > 1
    · simp only [h, if_true, List.foldl_cons]
      exact ih _ (hn ▸ ceil_half_lt h) _ _ _ rfl
    · simp [h]

theorem gradOctaves_getElem? {K : Type} [LinearOrderedField K] [FloorRing K] (g o : K) (k : ℕ) :
    (gradOctaves g o)[k]? = if g / 2 ^ k > 1 then some (g / 2 ^ k, o / 2 ^ k) else none := by
  induction k generalizing g o with
  | zero =>
    rw [gradOctaves_unfold]
    by_cases h : g > 1 <;> simp [h]
  | succ k ih =>
    rw [gradOctaves_unfold]
    have e1 : g / 2 / 2 ^ k = g / 2 ^ (k + 1) := by rw [div_div, pow_succ, mul_comm]
    have e2 : o / 2 / 2 ^ k = o / 2 ^ (k + 1) := by rw [div_div, pow_succ, mul_comm]
    by_cases h : g > 1
    · simp only [h, if_true, List.getElem?_cons_succ, ih, e1, e2]
    · have h' : ¬ g / 2 ^ (k + 1) > 1 := by
        rw [not_lt, div_le_one (by positivity)]
        have : (1 : K) ≤ 2 ^ (k + 1) := one_le_pow₀ (by norm_num)
        linarith [not_lt.mp h]
      simp [h, h']

/-- Induction along the passes of the `while` loop of `texPerlinGrad2d`, the
opacity of pass `j` being `o / 2 ^ j`. -/
theorem gradLoop_invariant (cosd sind : ℚ → ℚ) (rand : ℕ → ℕ) (width height : ℤ)
    (P : ℕ → List ℕ × ℕ → Prop) (o : ℚ)
    (hstep : ∀ j g st, P j st → P (j + 1)
      (octaveStep cosd sind rand width height g (o / 2 ^ j) st))
    (g : ℚ) (j : ℕ) (st : List ℕ × ℕ) (h0 : P j st) :
    ∃ n, P n (gradLoop cosd sind rand width height g (o / 2 ^ j) st) := by
  generalize hn : ⌈g⌉₊ = n
  induction n using Nat.strong_induction_on generalizing g j st with
  | _ n ih =>
    rw [gradLoop_unfold]
    by_cases h : g > 1
    · simp only [h, if_true]
      have e : o / 2 ^ j / 2 = o / 2 ^ (j + 1) := by rw [div_div, pow_succ, mul_comm]
      rw [e]
      exact ih _ (hn ▸ ceil_half_lt h) _ _ _ (hstep j g st h0) rfl
    · simp only [h, if_false]
      exact ⟨j, h0⟩

end Octaves

section OctaveValues

theorem truncInt_eq {K : Type} [LinearOrderedField K] [FloorRing K] {x : K} {n : ℤ} (h0 : 0 ≤ x) (h1 : (n : K) ≤ x) (h2 : x < (n : K) + 1) :
    truncInt x = n := by
  rw [truncInt_of_nonneg h0, Int.floor_eq_iff]
  exact ⟨h1, h2⟩

theorem baseGriddist_400 : baseGriddist 400 400 = 40 := by
  decide!

theorem gradOctaves_40 {K : Type} [LinearOrderedField K] [FloorRing K] (o : K) :
    gradOctaves (40 : K) o =
      [(40, o), (20, o / 2), (10, o / 2 / 2), (5, o / 2 / 2 / 2),
        (5 / 2, o / 2 / 2 / 2 / 2), (5 / 4, o / 2 / 2 / 2 / 2 / 2)] := by
  have e1 : (40 : K) / 2 = 20 := by norm_num
  have e2 : (20 : K) / 2 = 10 := by norm_num
  have e3 : (10 : K) / 2 = 5 := by norm_num
  have e4 : (5 : K) / 2 / 2 = 5 / 4 := by norm_num
  have h1 : (40 : K) > 1 := by norm_num
  have h2 : (20 : K) > 1 := by norm_num
  have h3 : (10 : K) > 1 := by norm_num
  have h4 : (5 : K) > 1 := by norm_num
  have h5 : (5 / 2 : K) > 1 := by norm_num
  have h6 : (5 / 4 : K) > 1 := by norm_num
  have h7 : ¬ ((5 / 4 : K) / 2 > 1) := by norm_num
  rw [gradOctaves_unfold, if_pos h1, e1, gradOctaves_unfold, if_pos h2, e2,
    gradOctaves_unfold, if_pos h3, e3, gradOctaves_unfold, if_pos h4,
    gradOctaves_unfold, if_pos h5, e4, gradOctaves_unfold, if_pos h6,
    gradOctaves_unfold, if_neg h7]

theorem truncInt_octaves_400 {K : Type} [LinearOrderedField K] [FloorRing K] :
    truncInt (40 : K) = 40 ∧ truncInt (20 : K) = 20 ∧ truncInt (10 : K) = 10 ∧
      truncInt (5 : K) = 5 ∧ truncInt (5 / 2 : K) = 2 ∧ truncInt (5 / 4 : K) = 1 := by
  refine ⟨truncInt_eq ?_ ?_ ?_, truncInt_eq ?_ ?_ ?_, truncInt_eq ?_ ?_ ?_,
    truncInt_eq ?_ ?_ ?_, truncInt_eq ?_ ?_ ?_, truncInt_eq ?_ ?_ ?_⟩ <;> norm_num

theorem texPerlinGrad2d_eq_foldl (cosd sind : ℚ → ℚ) (rand : ℕ → ℕ) (width height : ℤ) :
    texPerlinGrad2d cosd sind rand width height =
      ((gradOctaves (baseGriddist width height) (1 / 2)).foldl
        (fun s p => octaveStep cosd sind rand width height p.1 p.2 s)
        (List.replicate (3 * width * height).toNat 0, 0)).1 := by
  unfold texPerlinGrad2d
  simp only
  rw [gradLoop_eq_foldl]

end OctaveValues

section Accumulation

variable {K : Type} [LinearOrderedField K] [FloorRing K]

theorem octaveBound_le (j : ℕ) : octaveBound j ≤ 247 := by
  have h8 : ∀ j, 8 ≤ j → octaveBound j = 247 := by
    intro j hj
    induction j, hj using Nat.le_induction with
    | base => decide
    | succ n hn ih =>
      have hpow : 255 < 2 ^ (n + 1) :=
        calc 255 < 2 ^ 8 := by norm_num
          _ ≤ 2 ^ (n + 1) := Nat.pow_le_pow_right (by norm_num) (by omega)
      rw [octaveBound, ih, Nat.div_eq_of_lt hpow]
  rcases Nat.lt_or_ge j 8 with h | h
  · interval_cases j <;> decide
  · exact (h8 j h).le

theorem accumulate_half_pow (b t j : ℕ) (hb : b ≤ octaveBound j) (ht : t ≤ 255) :
    accumulate (1 / 2 / 2 ^ j : K) b t = b + t / 2 ^ (j + 1) ∧
      b + toU8 ((t : K) * (1 / 2 / 2 ^ j)) ≤ 255 ∧
      accumulate (1 / 2 / 2 ^ j : K) b t ≤ octaveBound (j + 1) := by
  have e : (1 / 2 / 2 ^ j : K) = 1 / 2 ^ (j + 1) := by rw [div_div, ← pow_succ']
  have hb' : b ≤ 247 := hb.trans (octaveBound_le j)
  have hq : t / 2 ^ (j + 1) ≤ 255 / 2 ^ (j + 1) := Nat.div_le_div_right ht
  have hB : octaveBound (j + 1) ≤ 247 := octaveBound_le (j + 1)
  have hB' : octaveBound (j + 1) = octaveBound j + 255 / 2 ^ (j + 1) := rfl
  rw [e, accumulate_inv_pow b t (j + 1) (by omega) ht, toU8_natCast_mul_inv_pow t (j + 1) ht]
  generalize t / 2 ^ (j + 1) = q at hq ⊢
  generalize 255 / 2 ^ (j + 1) = r at hq hB'
  have hmin : min 255 (b + q) = b + q := min_eq_right (by omega)
  rw [hmin]
  omega

theorem mem_zipWith_exists {α β γ : Type} (f : α → β → γ) (a : List α) (b : List β) (z : γ)
    (hz : z ∈ List.zipWith f a b) : ∃ x, x ∈ a ∧ ∃ y, y ∈ b ∧ f x y = z := by
  obtain ⟨i, hi⟩ := List.mem_iff_getElem?.mp hz
  obtain ⟨x, y, hx, hy, hxy⟩ := List.getElem?_zipWith_eq_some.mp hi
  exact ⟨x, List.mem_iff_getElem?.mpr ⟨i, hx⟩, y, List.mem_iff_getElem?.mpr ⟨i, hy⟩, hxy⟩

theorem octaveStep_bound (cosd sind : ℚ → ℚ) (rand : ℕ → ℕ) (width height : ℤ)
    (j : ℕ) (g : ℚ) (st : List ℕ × ℕ) (h : ∀ b, b ∈ st.1 → b ≤ octaveBound j) :
    ∀ b, b ∈ (octaveStep cosd sind rand width height g (1 / 2 / 2 ^ j) st).1 →
      b ≤ octaveBound (j + 1) := by
  intro z hz
  unfold octaveStep at hz
  obtain ⟨x, hx, y, hy, rfl⟩ := mem_zipWith_exists _ _ _ _ hz
  have hy' : y ≤ 255 := by
    have := texPerlin2d_mem_lt cosd sind rand st.2 width height (truncInt g) y hy
    omega
  exact (accumulate_half_pow x y j (h x hx) hy').2.2

theorem foldl_octaveStep_isGreyscale (cosd sind : ℚ → ℚ) (rand : ℕ → ℕ)
    (width height : ℤ) (L : List (ℚ × ℚ)) (st : List ℕ × ℕ)
    (h : isGreyscale (height.toNat * width.toNat) st.1) :
    isGreyscale (height.toNat * width.toNat)
      (L.foldl (fun s p => octaveStep cosd sind rand width height p.1 p.2 s) st).1 := by
  induction L generalizing st with
  | nil => exact h
  | cons p L ih =>
    rw [List.foldl_cons]
    apply ih
    unfold octaveStep
    exact isGreyscale_zipWith _ _ _ _ h (texPerlin2d_isGreyscale _ _ _ _ _ _ _)

theorem toNat_mul_of_pos (width height : ℤ) (hw : 1 ≤ width) (hh : 1 ≤ height) :
    (width * height).toNat = height.toNat * width.toNat ∧
      (3 * width * height).toNat = 3 * (height.toNat * width.toNat) := by
  lift width to ℕ using (by omega)
  lift height to ℕ using (by omega)
  constructor
  · rw [← Nat.cast_mul, Int.toNat_natCast, Int.toNat_natCast, Int.toNat_natCast, Nat.mul_comm]
  · have : (3 * (width : ℤ) * (height : ℤ)) = ((3 * (height * width) : ℕ) : ℤ) := by
      push_cast; ring
    rw [this, Int.toNat_natCast, Int.toNat_natCast, Int.toNat_natCast]

end Accumulation

section Fire

/-- Every input byte, by evaluation: each byte `firePixel` stores is the byte of
the exact table or one less, and it is the byte of the table unless the input
is one of `fireLowValues`. -/
theorem firePixel_cases : ∀ val, val < 256 →
    (∀ c, c < 3 → (firePixel val).getD c 0 ≤ (specFireBytes val).getD c 0 ∧
      (specFireBytes val).getD c 0 ≤ (firePixel val).getD c 0 + 1) ∧
    (firePixel val = specFireBytes val ↔ val ∉ fireLowValues) := by
  decide!

theorem getElem?_eq_some_getD {α : Type} (l : List α) (c : ℕ) (d : α) (h : c < l.length) :
    l[c]? = some (l.getD c d) := by
  rw [List.getD_eq_getElem?_getD, List.getElem?_eq_getElem h]
  rfl

theorem firePixel_length (val : ℕ) : (firePixel val).length = 3 := rfl

theorem texFireGradient2d_getElem? (width height : ℤ) (buffer : List ℕ) (p c : ℕ)
    (hp : p < (width * height).toNat) (hc : c < 3) :
    (texFireGradient2d width height buffer)[3 * p + c]? =
      some ((firePixel (buffer.getD (3 * p) 0)).getD c 0) := by
  unfold texFireGradient2d
  have hlen : ∀ i, i < (width * height).toNat →
      (firePixel (buffer.getD (3 * i) 0)).length = 3 := fun _ _ => rfl
  have hl := length_flatMap_range_const 3
    (fun i => firePixel (buffer.getD (3 * i) 0)) _ hlen
  have hidx : 3 * p + c = p * 3 + c := by omega
  rw [List.getElem?_append_left (by rw [hl]; omega), hidx,
    getElem?_flatMap_range_const 3
      (fun i => firePixel (buffer.getD (3 * i) 0)) _ hlen p c hp hc]
  exact getElem?_eq_some_getD _ c 0 (by rw [firePixel_length]; exact hc)

end Fire

section Marble

theorem texMarble2d_getElem? (sinf : ℚ → ℚ) (width height : ℤ) (buffer : List ℕ)
    (row col c : ℕ) (hrow : row < height.toNat) (hcol : col < width.toNat) (hc : c < 3) :
    (texMarble2d sinf width height buffer)[3 * (row * width.toNat + col) + c]? =
      some (marbleByte sinf width height buffer col row) := by
  unfold texMarble2d
  simp only
  have hl := length_pixels (fun row col =>
    [marbleByte sinf width height buffer col row,
      marbleByte sinf width height buffer col row,
      marbleByte sinf width height buffer col row])
    width.toNat height.toNat (fun _ _ => rfl)
  have hidx : 3 * (row * width.toNat + col) + c < 3 * (height.toNat * width.toNat) := by
    have h1 : row * width.toNat + col < height.toNat * width.toNat := by
      calc row * width.toNat + col < row * width.toNat + width.toNat := by omega
        _ = (row + 1) * width.toNat := by ring
        _ ≤ height.toNat * width.toNat := Nat.mul_le_mul_right _ hrow
    omega
  rw [List.getElem?_append_left (by rw [hl]; exact hidx),
    getElem?_pixels (fun row col =>
      [marbleByte sinf width height buffer col row,
        marbleByte sinf width height buffer col row,
        marbleByte sinf width height buffer col row])
      _ _ (fun _ _ => rfl) row col c hrow hcol hc]
  interval_cases c <;> rfl

theorem f32_le_of_le_255 {x : ℚ} (h0 : 0 ≤ x) (h1 : x ≤ 255) : 0 ≤ f32 x ∧ f32 x ≤ 255 := by
  have e : f32 255 = 255 := by decide!
  exact ⟨roundTo_nonneg _ _ x h0, e ▸ f32_mono h1⟩

theorem abs_sin_le_abs (t : ℝ) : |Real.sin t| ≤ |t| := by
  have key : ∀ s : ℝ, 0 ≤ s → |Real.sin s| ≤ s := by
    intro s hs
    rw [abs_le]
    constructor
    · rcases le_or_lt s Real.pi with h | h
      · have := Real.sin_nonneg_of_nonneg_of_le_pi hs h
        linarith
      · have := Real.neg_one_le_sin s
        have := Real.pi_gt_three
        linarith
    · rcases hs.lt_or_eq with h | h
      · exact (Real.sin_lt h).le
      · rw [← h, Real.sin_zero]
  rcases le_total 0 t with h | h
  · rw [abs_of_nonneg h]; exact key t h
  · have := key (-t) (by linarith)
    rw [Real.sin_neg, abs_neg] at this
    rw [abs_of_nonpos h]; exact this

theorem abs_sin_sub_sin_le (x y : ℝ) : |Real.sin x - Real.sin y| ≤ |x - y| := by
  rw [Real.sin_sub_sin, abs_mul, abs_mul]
  have h1 := abs_sin_le_abs ((x - y) / 2)
  have h2 := Real.abs_cos_le_one ((x + y) / 2)
  have h3 : |(x - y) / 2| = |x - y| / 2 := by rw [abs_div]; norm_num
  have h4 : (0 : ℝ) ≤ |Real.sin ((x - y) / 2)| := abs_nonneg _
  calc |(2 : ℝ)| * |Real.sin ((x - y) / 2)| * |Real.cos ((x + y) / 2)|
      ≤ |(2 : ℝ)| * |Real.sin ((x - y) / 2)| * 1 :=
        mul_le_mul_of_nonneg_left h2 (by positivity)
    _ ≤ |x - y| := by
        rw [mul_one, abs_of_pos (by norm_num : (0 : ℝ) < 2)]
        linarith

/-- The real sine at the `float` nearest `π / 6` that `texMarble2d` reaches. -/
theorem sin_marbleArg_near_half :
    |Real.sin (((4392265 / 8388608 : ℚ) : ℝ)) - 1 / 2| ≤ 1 / 1000000 := by
  rw [← Real.sin_pi_div_six]
  refine (abs_sin_sub_sin_le _ _).trans ?_
  have h1 := Real.pi_gt_d6
  have h2 := Real.pi_lt_d6
  rw [abs_le]
  push_cast
  constructor <;> norm_num <;> linarith

end Marble

section Lattice

theorem perlin2_lattice {K : Type} [LinearOrderedField K] [FloorRing K]
    (cosf : K → K) (pi : K) (hcos : cosf 0 = 1) (gridnx : ℤ)
    (gridx gridy : ℤ → K) (m n : ℤ) :
    perlin2 cosf pi gridnx gridx gridy (m : K) (n : K) = 0 := by
  unfold perlin2 perlinCell
  simp only [truncInt_intCast]
  unfold lerp dot
  simp [hcos]

theorem f32_natCast (n : ℕ) (h : n ≤ 2 ^ 24) : f32 (n : ℚ) = n := by
  have := f32_intCast (n : ℤ) (by rw [abs_of_nonneg (by positivity)]; exact_mod_cast h)
  exact_mod_cast this

theorem f32_one : f32 1 = 1 := by decide!

/-- In `lerp`, a weight `0` selects the first argument (given `cos(0.0) = 1.0`). -/
theorem lerpF_zero (cosd : ℚ → ℚ) (hcos : cosd 0 = 1) (a0 a1 : ℚ) :
    lerpF cosd a0 a1 0 = f32 (f32 a0) := by
  unfold lerpF
  simp only [mul_zero, f32_zero, hcos, sub_self, f64_zero, zero_div, sub_zero, f32_one,
    one_mul, zero_mul, add_zero]

theorem dotF_self (gridnx : ℤ) (gridx gridy : ℤ → ℚ) (a b : ℤ)
    (ha : |a| ≤ 2 ^ 24) (hb : |b| ≤ 2 ^ 24) :
    dotF gridnx gridx gridy a b (a : ℚ) (b : ℚ) = 0 := by
  unfold dotF
  simp only [f32_intCast a ha, f32_intCast b hb, sub_self, f32_zero, zero_mul, add_zero]

theorem perlin2F_lattice (cosd : ℚ → ℚ) (hcos : cosd 0 = 1) (gridnx : ℤ)
    (gridx gridy : ℤ → ℚ) (a b : ℤ) (ha : |a| ≤ 2 ^ 24) (hb : |b| ≤ 2 ^ 24) :
    perlin2F cosd gridnx gridx gridy (a : ℚ) (b : ℚ) = 0 := by
  unfold perlin2F perlinCellF
  simp only [truncInt_intCast, f32_intCast a ha, f32_intCast b hb, sub_self, f32_zero,
    lerpF_zero cosd hcos, dotF_self gridnx gridx gridy a b ha hb]

/-- A pixel coordinate that is a multiple of the cell size, both at most
`2 ^ 24`, is sampled at the exact quotient. -/
theorem perlinSample_of_dvd (griddist : ℤ) (col : ℕ) (a : ℤ) (hg : 1 ≤ griddist)
    (hg' : griddist ≤ 2 ^ 24) (hcol : col ≤ 2 ^ 24) (ha : (col : ℤ) = griddist * a) :
    perlinSample griddist col = (a : ℚ) ∧ |a| ≤ 2 ^ 24 := by
  have ha0 : 0 ≤ a := by
    by_contra h
    push_neg at h
    have : griddist * a < 0 := by nlinarith
    omega
  have ha1 : a ≤ col := by nlinarith
  have habs : |a| ≤ 2 ^ 24 := by
    rw [abs_of_nonneg ha0]
    have : (col : ℤ) ≤ 2 ^ 24 := by exact_mod_cast hcol
    omega
  refine ⟨?_, habs⟩
  unfold perlinSample
  rw [f32_natCast col hcol, f32_intCast griddist (by rw [abs_of_nonneg (by omega)]; exact hg')]
  have hgq : (griddist : ℚ) ≠ 0 := by
    have : (0 : ℚ) < (griddist : ℚ) := by exact_mod_cast (by omega : (0 : ℤ) < griddist)
    exact this.ne'
  have : (col : ℚ) / (griddist : ℚ) = (a : ℚ) := by
    have hc : (col : ℚ) = (griddist : ℚ) * (a : ℚ) := by exact_mod_cast ha
    rw [hc]; field_simp
  rw [this]
  exact f32_intCast a habs

theorem toU8_half_byte : toU8 (f32 (f32 (f32 (1 / 2 * 0) + 1 / 2) * 255)) = 127 := by
  decide!

theorem perlinByte_lattice (cosd : ℚ → ℚ) (hcos : cosd 0 = 1) (gridnx : ℤ)
    (gridx gridy : ℤ → ℚ) (griddist : ℤ) (col row : ℕ) (hg : 1 ≤ griddist)
    (hg' : griddist ≤ 2 ^ 24) (hc : col ≤ 2 ^ 24) (hr : row ≤ 2 ^ 24)
    (hcol : griddist ∣ (col : ℤ)) (hrow : griddist ∣ (row : ℤ)) :
    perlinByte cosd gridnx gridx gridy griddist col row = 127 := by
  obtain ⟨a, ha⟩ := hcol
  obtain ⟨b, hb⟩ := hrow
  obtain ⟨sa, ba⟩ := perlinSample_of_dvd griddist col a hg hg' hc ha
  obtain ⟨sb, bb⟩ := perlinSample_of_dvd griddist row b hg hg' hr hb
  unfold perlinByte
  simp only [sa, sb, perlin2F_lattice cosd hcos gridnx gridx gridy a b ba bb]
  exact toU8_half_byte

theorem octaveStep_origin (cosd sind : ℚ → ℚ) (hcos : cosd 0 = 1) (rand : ℕ → ℕ)
    (width height : ℤ) (hw : 1 ≤ width) (hh : 1 ≤ height) (g o : ℚ)
    (hg : 1 ≤ truncInt g) (hg' : truncInt g ≤ 2 ^ 24) (st : List ℕ × ℕ) (c b : ℕ)
    (hc : c < 3) (hb : st.1[c]? = some b) :
    (octaveStep cosd sind rand width height g o st).1[c]? = some (accumulate o b 127) := by
  have h := texPerlin2d_getElem? cosd sind rand st.2 width height (truncInt g) 0 0 c
    (by omega) (by omega) hc
  rw [perlinByte_lattice cosd hcos _ _ _ _ 0 0 hg hg' (by norm_num) (by norm_num)
    (by simp) (by simp)] at h
  simp only [Nat.zero_mul, Nat.add_zero, Nat.mul_zero, Nat.zero_add] at h
  unfold octaveStep
  simp only [List.getElem?_zipWith, hb, h]

end Lattice

section OffLattice

theorem f32_bounds {x lo hi : ℚ} (hlo : f32 lo = lo) (hhi : f32 hi = hi) (h1 : lo ≤ x)
    (h2 : x ≤ hi) : lo ≤ f32 x ∧ f32 x ≤ hi :=
  ⟨hlo ▸ f32_mono h1, hhi ▸ f32_mono h2⟩

theorem f64_bounds {x lo hi : ℚ} (hlo : f64 lo = lo) (hhi : f64 hi = hi) (h1 : lo ≤ x)
    (h2 : x ≤ hi) : lo ≤ f64 x ∧ f64 x ≤ hi :=
  ⟨hlo ▸ f64_mono h1, hhi ▸ f64_mono h2⟩

theorem float_consts :
    f32 (1 / 2) = 1 / 2 ∧ f32 (1 / 4) = 1 / 4 ∧ f32 (1 / 8) = 1 / 8 ∧ f32 (-1) = -1 ∧
      f32 (-1 / 2) = -1 / 2 ∧ f64 2 = 2 ∧ f64 1 = 1 ∧ f32 (9 / 16) = 9 / 16 ∧
      f32 (2295 / 16) = 2295 / 16 ∧ f32 255 = 255 ∧ f32 (1 / 16) = 1 / 16 := by
  decide!

/-- The eased weight of `lerp` lies in `[0, 1]` when `cos` has values in
`[-1, 1]`. -/
theorem lerpF_weight_mem (cosd : ℚ → ℚ) (hr : ∀ x, -1 ≤ cosd x ∧ cosd x ≤ 1) (s : ℚ) :
    0 ≤ f32 (f64 (f64 (1 - cosd (f32 (piF * s))) / 2)) ∧
      f32 (f64 (f64 (1 - cosd (f32 (piF * s))) / 2)) ≤ 1 := by
  obtain ⟨c1, c2⟩ := hr (f32 (piF * s))
  obtain ⟨-, -, -, -, -, k2, k1, -⟩ := float_consts
  obtain ⟨a1, a2⟩ := f64_bounds f64_zero k2 (by linarith : (0 : ℚ) ≤ 1 - cosd (f32 (piF * s)))
    (by linarith)
  obtain ⟨b1, b2⟩ := f64_bounds f64_zero k1
    (by linarith : (0 : ℚ) ≤ f64 (1 - cosd (f32 (piF * s))) / 2) (by linarith)
  exact f32_bounds f32_zero f32_one b1 b2

/-- Interpolating two values of `[1/4, 1/2]` gives a value of `[1/8, 1]`,
whatever the weight. -/
theorem lerpF_bounds (cosd : ℚ → ℚ) (hr : ∀ x, -1 ≤ cosd x ∧ cosd x ≤ 1) (a0 a1 s : ℚ)
    (h0 : 1 / 4 ≤ a0) (h0' : a0 ≤ 1 / 2) (h1 : 1 / 4 ≤ a1) (h1' : a1 ≤ 1 / 2) :
    1 / 8 ≤ lerpF cosd a0 a1 s ∧ lerpF cosd a0 a1 s ≤ 1 := by
  obtain ⟨w0, w1⟩ := lerpF_weight_mem cosd hr s
  obtain ⟨k12, k14, k18, -⟩ := float_consts
  unfold lerpF
  simp only
  generalize f32 (f64 (f64 (1 - cosd (f32 (piF * s))) / 2)) = w at w0 w1
  obtain ⟨u0, u1⟩ := f32_bounds f32_zero f32_one (by linarith : (0 : ℚ) ≤ 1 - w) (by linarith)
  have t1 : 0 ≤ f32 (1 - w) * a0 := mul_nonneg u0 (by linarith)
  have t1' : f32 (1 - w) * a0 ≤ 1 / 2 := by nlinarith
  have t2 : 0 ≤ w * a1 := mul_nonneg w0 (by linarith)
  have t2' : w * a1 ≤ 1 / 2 := by nlinarith
  obtain ⟨p0, p1⟩ := f32_bounds f32_zero k12 t1 t1'
  obtain ⟨q0, q1⟩ := f32_bounds f32_zero k12 t2 t2'
  constructor
  · rcases le_total (1 / 2) w with hw | hw
    · have : 1 / 8 ≤ w * a1 := by nlinarith
      have := (f32_bounds k18 k12 this t2').1
      exact (f32_bounds k18 f32_one (by linarith) (by linarith)).1
    · have hu : 1 / 2 ≤ f32 (1 - w) :=
        (f32_bounds k12 f32_one (by linarith : (1 : ℚ) / 2 ≤ 1 - w) (by linarith)).1
      have : 1 / 8 ≤ f32 (1 - w) * a0 := by nlinarith
      have := (f32_bounds k18 k12 this t1').1
      exact (f32_bounds k18 f32_one (by linarith) (by linarith)).1
  · exact (f32_bounds f32_zero f32_one (by linarith) (by linarith)).2

end OffLattice

section OffLatticeByte

/-- A pixel sampled half-way between two lattice columns, on a lattice row,
whose left gradient is `(1, _)` and whose right gradient has a first component
in `[-1, -1/2]`, gets a byte of at least `143`. -/
theorem perlinByte_ge (cosd : ℚ → ℚ) (hcos : cosd 0 = 1)
    (hr : ∀ x, -1 ≤ cosd x ∧ cosd x ≤ 1) (gridnx : ℤ) (gridx gridy : ℤ → ℚ)
    (griddist : ℤ) (col row : ℕ) (x0 y0 : ℤ)
    (hsx : perlinSample griddist col = (x0 : ℚ) + 1 / 2)
    (hsy : perlinSample griddist row = (y0 : ℚ))
    (hx0 : 0 ≤ x0) (hx1 : x0 + 1 ≤ 2 ^ 24) (hy0 : |y0| ≤ 2 ^ 24)
    (hg0 : gridx (gridIndex gridnx x0 y0) = 1)
    (hg1 : -1 ≤ gridx (gridIndex gridnx (x0 + 1) y0) ∧
      gridx (gridIndex gridnx (x0 + 1) y0) ≤ -1 / 2) :
    143 ≤ perlinByte cosd gridnx gridx gridy griddist col row := by
  obtain ⟨k12, k14, k18, km1, km12, -, -, k916, k2295, k255, k116⟩ := float_consts
  have hx0q : (0 : ℚ) ≤ (x0 : ℚ) := by exact_mod_cast hx0
  have htx : truncInt ((x0 : ℚ) + 1 / 2) = x0 :=
    truncInt_eq (by linarith) (by linarith) (by linarith)
  have fx0 : f32 (x0 : ℚ) = x0 := f32_intCast x0 (by rw [abs_of_nonneg hx0]; omega)
  have fx1 : f32 ((x0 + 1 : ℤ) : ℚ) = ((x0 + 1 : ℤ) : ℚ) :=
    f32_intCast (x0 + 1) (by rw [abs_of_nonneg (by omega)]; exact hx1)
  have fy0 : f32 (y0 : ℚ) = y0 := f32_intCast y0 hy0
  have dx0 : f32 ((x0 : ℚ) + 1 / 2 - f32 (x0 : ℚ)) = 1 / 2 := by
    rw [fx0, show (x0 : ℚ) + 1 / 2 - (x0 : ℚ) = 1 / 2 by ring, k12]
  have dx1 : f32 ((x0 : ℚ) + 1 / 2 - f32 ((x0 + 1 : ℤ) : ℚ)) = -1 / 2 := by
    rw [fx1, show (x0 : ℚ) + 1 / 2 - ((x0 + 1 : ℤ) : ℚ) = -1 / 2 by push_cast; ring, km12]
  have dy0 : f32 ((y0 : ℚ) - f32 (y0 : ℚ)) = 0 := by
    rw [fy0, sub_self, f32_zero]
  -- the two dot products of the row `y0`
  have d00 : dotF gridnx gridx gridy x0 y0 ((x0 : ℚ) + 1 / 2) (y0 : ℚ) = 1 / 2 := by
    unfold dotF
    simp only [dx0, dy0, hg0, mul_one, zero_mul, f32_zero, add_zero, k12]
  have d10 : 1 / 4 ≤ dotF gridnx gridx gridy (x0 + 1) y0 ((x0 : ℚ) + 1 / 2) (y0 : ℚ) ∧
      dotF gridnx gridx gridy (x0 + 1) y0 ((x0 : ℚ) + 1 / 2) (y0 : ℚ) ≤ 1 / 2 := by
    unfold dotF
    simp only [dx1, dy0, zero_mul, f32_zero, add_zero]
    obtain ⟨g1, g2⟩ := hg1
    obtain ⟨a1, a2⟩ := f32_bounds k14 k12
      (by linarith : (1 : ℚ) / 4 ≤ -1 / 2 * gridx (gridIndex gridnx (x0 + 1) y0))
      (by linarith)
    exact f32_bounds k14 k12 a1 a2
  obtain ⟨i1, i2⟩ := lerpF_bounds cosd hr
    (dotF gridnx gridx gridy x0 y0 ((x0 : ℚ) + 1 / 2) (y0 : ℚ))
    (dotF gridnx gridx gridy (x0 + 1) y0 ((x0 : ℚ) + 1 / 2) (y0 : ℚ)) (1 / 2)
    (by rw [d00]; norm_num) (by rw [d00]) d10.1 d10.2
  unfold perlinByte
  simp only [hsx, hsy]
  unfold perlin2F
  rw [htx, truncInt_intCast]
  unfold perlinCellF
  simp only [dx0, dy0, lerpF_zero cosd hcos]
  generalize lerpF cosd (dotF gridnx gridx gridy x0 y0 ((x0 : ℚ) + 1 / 2) (y0 : ℚ))
    (dotF gridnx gridx gridy (x0 + 1) y0 ((x0 : ℚ) + 1 / 2) (y0 : ℚ)) (1 / 2) = v at i1 i2
  obtain ⟨v1, v2⟩ := f32_bounds k18 f32_one i1 i2
  obtain ⟨v3, v4⟩ := f32_bounds k18 f32_one v1 v2
  obtain ⟨h1, h2⟩ := f32_bounds k116 k12
    (by linarith : (1 : ℚ) / 16 ≤ 1 / 2 * f32 (f32 v)) (by linarith)
  obtain ⟨s1, s2⟩ := f32_bounds k916 f32_one
    (by linarith : (9 : ℚ) / 16 ≤ f32 (1 / 2 * f32 (f32 v)) + 1 / 2) (by linarith)
  obtain ⟨b1, b2⟩ := f32_bounds k2295 k255
    (by linarith : (2295 : ℚ) / 16 ≤ f32 (f32 (1 / 2 * f32 (f32 v)) + 1 / 2) * 255)
    (by linarith)
  rw [toU8_eq_floor (by linarith) (by linarith)]
  apply Nat.le_floor
  push_cast
  linarith

end OffLatticeByte

section CheckedReadsLemmas

theorem gridRead_eq_some {grid : List ℚ} {i : ℤ} (h0 : 0 ≤ i) (h1 : i < grid.length) :
    gridRead grid i = some (grid.getD i.toNat 0) := by
  have hlt : i.toNat < grid.length := by omega
  rw [gridRead, if_pos h0, List.getElem?_eq_getElem hlt, List.getD_eq_getElem _ _ hlt]

theorem gridRead_eq_none {grid : List ℚ} {i : ℤ} (h : (grid.length : ℤ) ≤ i) :
    gridRead grid i = none := by
  have h0 : 0 ≤ i := le_trans (Int.natCast_nonneg _) h
  rw [gridRead, if_pos h0, List.getElem?_eq_none]
  omega

/-- Where its reads are inside the arrays, `dotChk` is `dotF` on the array
contents. -/
theorem dotChk_eq_some (gridnx : ℤ) (gridx gridy : List ℚ) (ix iy : ℤ) (x y : ℚ)
    (h0 : 0 ≤ gridIndex gridnx ix iy) (hx : gridIndex gridnx ix iy < gridx.length)
    (hy : gridIndex gridnx ix iy < gridy.length) :
    dotChk gridnx gridx gridy ix iy x y =
      some (dotF gridnx (fun i => gridx.getD i.toNat 0) (fun i => gridy.getD i.toNat 0)
        ix iy x y) := by
  simp only [dotChk, dotF, gridRead_eq_some h0 hx, gridRead_eq_some h0 hy, Option.some_bind]

/-- A read past the end of `gridx` makes `dotChk` fail. -/
theorem dotChk_eq_none (gridnx : ℤ) (gridx gridy : List ℚ) (ix iy : ℤ) (x y : ℚ)
    (h : (gridx.length : ℤ) ≤ gridIndex gridnx ix iy) :
    dotChk gridnx gridx gridy ix iy x y = none := by
  simp only [dotChk, gridRead_eq_none h, Option.none_bind]

/-- Where the four lattice corners are inside the arrays, `perlinCellChk` is
`perlinCellF` on the array contents. -/
theorem perlinCellChk_eq_some (cosd : ℚ → ℚ) {gridnx : ℤ} {gridx gridy : List ℚ}
    {x0 y0 : ℤ} (x y : ℚ) (hlen : gridy.length = gridx.length)
    (h00 : 0 ≤ gridIndex gridnx x0 y0)
    (h11 : gridIndex gridnx (x0 + 1) (y0 + 1) < gridx.length) (hn : 0 ≤ gridnx) :
    perlinCellChk cosd gridnx gridx gridy x0 y0 x y =
      some (perlinCellF cosd gridnx (fun i => gridx.getD i.toNat 0)
        (fun i => gridy.getD i.toNat 0) x0 y0 x y) := by
  have e00 : gridIndex gridnx x0 y0 = y0 * gridnx + x0 := rfl
  have e10 : gridIndex gridnx (x0 + 1) y0 = y0 * gridnx + x0 + 1 := by
    unfold gridIndex; ring
  have e01 : gridIndex gridnx x0 (y0 + 1) = y0 * gridnx + x0 + gridnx := by
    unfold gridIndex; ring
  have e11 : gridIndex gridnx (x0 + 1) (y0 + 1) = y0 * gridnx + x0 + gridnx + 1 := by
    unfold gridIndex; ring
  have d00 := dotChk_eq_some gridnx gridx gridy x0 y0 x y h00
    (by rw [e00]; rw [e11] at h11; omega) (by rw [hlen, e00]; rw [e11] at h11; omega)
  have d10 := dotChk_eq_some gridnx gridx gridy (x0 + 1) y0 x y
    (by rw [e10]; rw [e00] at h00; omega) (by rw [e10]; rw [e11] at h11; omega)
    (by rw [hlen, e10]; rw [e11] at h11; omega)
  have d01 := dotChk_eq_some gridnx gridx gridy x0 (y0 + 1) x y
    (by rw [e01]; rw [e00] at h00; omega) (by rw [e01]; rw [e11] at h11; omega)
    (by rw [hlen, e01]; rw [e11] at h11; omega)
  have d11 := dotChk_eq_some gridnx gridx gridy (x0 + 1) (y0 + 1) x y
    (by rw [e11]; rw [e00] at h00; omega) h11 (by rw [hlen]; exact h11)
  simp only [perlinCellChk, perlinCellF, d00, d10, d01, d11, Option.some_bind]

/-- A corner `(x0 + 1, y0 + 1)` past the end of `gridx` makes `perlinCellChk`
fail, whatever the other three reads give. -/
theorem perlinCellChk_eq_none (cosd : ℚ → ℚ) {gridnx : ℤ} {gridx gridy : List ℚ}
    {x0 y0 : ℤ} (x y : ℚ)
    (h : (gridx.length : ℤ) ≤ gridIndex gridnx (x0 + 1) (y0 + 1)) :
    perlinCellChk cosd gridnx gridx gridy x0 y0 x y = none := by
  have d11 := dotChk_eq_none gridnx gridx gridy (x0 + 1) (y0 + 1) x y h
  unfold perlinCellChk
  simp only [d11]
  cases dotChk gridnx gridx gridy x0 y0 x y <;>
    cases dotChk gridnx gridx gridy (x0 + 1) y0 x y <;>
      cases dotChk gridnx gridx gridy x0 (y0 + 1) x y <;> rfl

end CheckedReadsLemmas

section SampleCell

theorem roundHalfEven_lt {y : ℚ} {M : ℤ} (h : y < (M : ℚ) - 1 / 2) : roundHalfEven y < M := by
  have hf0 := Int.floor_le y
  have hfM : ⌊y⌋ < M := by
    have : ((⌊y⌋ : ℤ) : ℚ) < (M : ℚ) := by linarith
    exact_mod_cast this
  unfold roundHalfEven
  simp only
  by_cases h1 : y - (⌊y⌋ : ℚ) < 1 / 2
  · rw [if_pos h1]; exact hfM
  · have h2 : ((⌊y⌋ + 1 : ℤ) : ℚ) < (M : ℚ) := by push_cast; linarith
    have h3 : ⌊y⌋ + 1 < M := by exact_mod_cast h2
    rw [if_neg h1]
    split_ifs <;> omega

/-- The `float` quotient of two integers below `2 ^ 24` stays below every
integer that the exact quotient is below: rounding never reaches the next
integer. -/
theorem f32_div_lt_int (a g : ℕ) (m : ℤ) (ha : a < 2 ^ 24) (hg : 1 ≤ g) (hg' : g ≤ 2 ^ 24)
    (h : (a : ℚ) / (g : ℚ) < (m : ℚ)) : f32 ((a : ℚ) / (g : ℚ)) < (m : ℚ) := by
  rcases Nat.eq_zero_or_pos a with h0 | hpos
  · subst h0
    rw [Nat.cast_zero, zero_div] at h ⊢
    rw [f32_zero]; exact h
  have hgq : (0 : ℚ) < (g : ℚ) := by exact_mod_cast hg
  have haq : (1 : ℚ) ≤ (a : ℚ) := by exact_mod_cast hpos
  have ha24 : (a : ℚ) + 1 ≤ 16777216 := by
    have : a + 1 ≤ 16777216 := by norm_num at ha; omega
    exact_mod_cast this
  have hg24 : (g : ℚ) ≤ 16777216 := by
    have : g ≤ 16777216 := by norm_num at hg'; omega
    exact_mod_cast this
  have hg1 : (1 : ℚ) ≤ (g : ℚ) := by exact_mod_cast hg
  have hx : (0 : ℚ) < (a : ℚ) / (g : ℚ) := div_pos (by linarith) hgq
  have hxg : (a : ℚ) / (g : ℚ) * (g : ℚ) = (a : ℚ) := div_mul_cancel₀ _ hgq.ne'
  have hmg : (a : ℚ) + 1 ≤ (m : ℚ) * (g : ℚ) := by
    have h1 : (a : ℚ) < (m : ℚ) * (g : ℚ) := (div_lt_iff₀ hgq).mp h
    have h2 : (a : ℤ) < m * (g : ℤ) := by exact_mod_cast h1
    have h3 : (a : ℤ) + 1 ≤ m * (g : ℤ) := h2
    exact_mod_cast h3
  generalize hxdef : (a : ℚ) / (g : ℚ) = x at hx hxg h ⊢
  obtain ⟨s1, s2⟩ := ilog2_spec x hx.ne'
  rw [abs_of_pos hx] at s1 s2
  have hxle : x ≤ (a : ℚ) := by
    rw [← hxg]; exact le_mul_of_one_le_right hx.le hg1
  have hxlt : x < (2 : ℚ) ^ (24 : ℤ) := by norm_num; linarith
  have he1 : ilog2 x < 24 :=
    (zpow_lt_zpow_iff_right₀ (by norm_num : (1 : ℚ) < 2)).mp (lt_of_le_of_lt s1 hxlt)
  have hxge : (2 : ℚ) ^ (-24 : ℤ) ≤ x := by
    have e : (2 : ℚ) ^ (-24 : ℤ) = 1 / 16777216 := by norm_num [zpow_neg]
    rw [e, div_le_iff₀ (by norm_num : (0 : ℚ) < 16777216)]
    nlinarith
  have he2 : (-24 : ℤ) < ilog2 x + 1 :=
    (zpow_lt_zpow_iff_right₀ (by norm_num : (1 : ℚ) < 2)).mp (lt_of_le_of_lt hxge s2)
  have ht : max (ilog2 x - (((24 : ℕ) : ℤ) - 1)) (-149) = ilog2 x - 23 := by
    rw [max_eq_left (by push_cast; omega)]; push_cast; ring
  unfold f32
  rw [roundTo_of_ne 24 (-149) x hx.ne', ht]
  have hsplit := zpow_two_split 0 (ilog2 x - 23) (by omega)
  rw [zpow_zero] at hsplit
  have hq : (0 : ℚ) < (2 : ℚ) ^ (ilog2 x - 23) := by positivity
  have hqE : (2 : ℚ) ^ (ilog2 x - 23) = (2 : ℚ) ^ ilog2 x / 8388608 := by
    rw [zpow_sub₀ (by norm_num : (2 : ℚ) ≠ 0)]; norm_num
  have hm : (m : ℚ) =
      ((m * ((2 ^ (0 - (ilog2 x - 23)).toNat : ℕ) : ℤ) : ℤ) : ℚ) * (2 : ℚ) ^ (ilog2 x - 23) := by
    rw [Int.cast_mul, mul_assoc, ← hsplit, mul_one]
  have hE : (2 : ℚ) ^ ilog2 x * (g : ℚ) ≤ (a : ℚ) := by
    rw [← hxg]; exact mul_le_mul_of_nonneg_right s1 hgq.le
  have key : x / (2 : ℚ) ^ (ilog2 x - 23) <
      ((m * ((2 ^ (0 - (ilog2 x - 23)).toNat : ℕ) : ℤ) : ℤ) : ℚ) - 1 / 2 := by
    rw [div_lt_iff₀ hq, sub_mul, ← hm, hqE]
    have hEpos : (0 : ℚ) < (2 : ℚ) ^ ilog2 x := by positivity
    have : (x + (2 : ℚ) ^ ilog2 x / 16777216) * (g : ℚ) < (m : ℚ) * (g : ℚ) := by
      rw [add_mul, hxg]
      have : (2 : ℚ) ^ ilog2 x / 16777216 * (g : ℚ) < 1 := by
        rw [div_mul_eq_mul_div, div_lt_iff₀ (by norm_num : (0 : ℚ) < 16777216)]
        linarith
      linarith
    have := lt_of_mul_lt_mul_right this hgq.le
    linarith
  have hr := roundHalfEven_lt key
  have hr' : ((roundHalfEven (x / (2 : ℚ) ^ (ilog2 x - 23)) : ℤ) : ℚ) <
      ((m * ((2 ^ (0 - (ilog2 x - 23)).toNat : ℕ) : ℤ) : ℤ) : ℚ) := by exact_mod_cast hr
  calc ((roundHalfEven (x / (2 : ℚ) ^ (ilog2 x - 23)) : ℤ) : ℚ) * (2 : ℚ) ^ (ilog2 x - 23)
      < ((m * ((2 ^ (0 - (ilog2 x - 23)).toNat : ℕ) : ℤ) : ℤ) : ℚ) *
          (2 : ℚ) ^ (ilog2 x - 23) := mul_lt_mul_of_pos_right hr' hq
    _ = (m : ℚ) := hm.symm

/-- For `col < 2 ^ 24` and `1 ≤ griddist ≤ 2 ^ 24` the cell `(int)((float)col /
griddist)` that the code computes is the integer quotient `col / griddist`. -/
theorem truncInt_perlinSample (griddist : ℤ) (col : ℕ) (hg : 1 ≤ griddist)
    (hg' : griddist ≤ 2 ^ 24) (hc : col < 2 ^ 24) :
    truncInt (perlinSample griddist col) = (col : ℤ) / griddist := by
  obtain ⟨g, rfl⟩ : ∃ g : ℕ, griddist = (g : ℤ) := ⟨griddist.toNat, by omega⟩
  have hgn : 1 ≤ g := by exact_mod_cast hg
  have hgn' : g ≤ 2 ^ 24 := by exact_mod_cast hg'
  have hgq : (0 : ℚ) < (g : ℚ) := by exact_mod_cast hgn
  have fc : f32 (col : ℚ) = col := f32_natCast col hc.le
  have fg : f32 (((g : ℕ) : ℤ) : ℚ) = (g : ℚ) := by
    rw [Int.cast_natCast]; exact f32_natCast g hgn'
  unfold perlinSample
  rw [fc, fg]
  have hq0 : (0 : ℚ) ≤ (col : ℚ) / (g : ℚ) := div_nonneg (Nat.cast_nonneg _) hgq.le
  have hlo : (((col / g : ℕ) : ℤ) : ℚ) ≤ f32 ((col : ℚ) / (g : ℚ)) := by
    have h1 : ((col / g : ℕ) : ℚ) ≤ (col : ℚ) / (g : ℚ) := Nat.cast_div_le
    have h2 := f32_mono h1
    rw [f32_natCast _ ((Nat.div_le_self col g).trans hc.le)] at h2
    exact_mod_cast h2
  have hhi : f32 ((col : ℚ) / (g : ℚ)) < (((col / g : ℕ) : ℤ) : ℚ) + 1 := by
    have h1 : (col : ℚ) / (g : ℚ) < (((col / g + 1 : ℕ) : ℤ) : ℚ) := by
      rw [div_lt_iff₀ hgq]
      have : col < (col / g + 1) * g := Nat.lt_div_mul_add hgn |>.trans_le (by
        rw [Nat.add_mul, Nat.one_mul])
      exact_mod_cast this
    have := f32_div_lt_int col g ((col / g + 1 : ℕ) : ℤ) hc hgn hgn' h1
    push_cast at this ⊢
    exact this
  have hnn : (0 : ℚ) ≤ f32 ((col : ℚ) / (g : ℚ)) := roundTo_nonneg _ _ _ hq0
  rw [truncInt_of_nonneg hnn, Int.floor_eq_iff]
  exact ⟨by exact_mod_cast hlo, by exact_mod_cast hhi⟩

end SampleCell

section InGrid

/-- For a texture of at most `2 ^ 24` columns and rows and a cell size of at
most `2 ^ 24`, the four reads of `perlin2` for a pixel of the texture are inside
the grid arrays of `gridnx * gridny` entries, and `perlin2` has the value
`perlin2F` computes from their contents. -/
theorem perlin2Chk_eq_some (cosd : ℚ → ℚ) (gridx gridy : List ℚ)
    (width height griddist : ℤ) (col row : ℕ) (hg : 1 ≤ griddist) (hg' : griddist ≤ 2 ^ 24)
    (hw : width ≤ 2 ^ 24) (hh : height ≤ 2 ^ 24)
    (hcol : (col : ℤ) < width) (hrow : (row : ℤ) < height)
    (hlx : (gridx.length : ℤ) = gridSize width griddist * gridSize height griddist)
    (hly : gridy.length = gridx.length) :
    perlin2Chk cosd (gridSize width griddist) gridx gridy
        (perlinSample griddist col) (perlinSample griddist row) =
      some (perlin2F cosd (gridSize width griddist) (fun i => gridx.getD i.toNat 0)
        (fun i => gridy.getD i.toNat 0) (perlinSample griddist col)
        (perlinSample griddist row)) := by
  have hc24 : col < 2 ^ 24 := by
    have : (col : ℤ) < 2 ^ 24 := lt_of_lt_of_le hcol hw
    exact_mod_cast this
  have hr24 : row < 2 ^ 24 := by
    have : (row : ℤ) < 2 ^ 24 := lt_of_lt_of_le hrow hh
    exact_mod_cast this
  have tx := truncInt_perlinSample griddist col hg hg' hc24
  have ty := truncInt_perlinSample griddist row hg hg' hr24
  have hgpos : 0 < griddist := by omega
  have hx0 : 0 ≤ (col : ℤ) / griddist := Int.ediv_nonneg (Int.natCast_nonneg _) hgpos.le
  have hy0 : 0 ≤ (row : ℤ) / griddist := Int.ediv_nonneg (Int.natCast_nonneg _) hgpos.le
  have hxw : (col : ℤ) / griddist ≤ width / griddist := Int.ediv_le_ediv hgpos hcol.le
  have hyh : (row : ℤ) / griddist ≤ height / griddist := Int.ediv_le_ediv hgpos hrow.le
  have gw : gridSize width griddist = 2 + width / griddist := by
    unfold gridSize
    rw [Int.tdiv_eq_ediv (by omega) hgpos.le]
  have gh : gridSize height griddist = 2 + height / griddist := by
    unfold gridSize
    rw [Int.tdiv_eq_ediv (by omega) hgpos.le]
  unfold perlin2Chk perlin2F
  rw [tx, ty]
  apply perlinCellChk_eq_some cosd _ _ hly
  · unfold gridIndex
    rw [gw]
    have := mul_nonneg hy0 (by omega : (0 : ℤ) ≤ 2 + width / griddist)
    omega
  · have h : gridIndex (gridSize width griddist) ((col : ℤ) / griddist + 1)
        ((row : ℤ) / griddist + 1) < gridSize width griddist * gridSize height griddist := by
      unfold gridIndex
      rw [gw, gh]
      have h1 : ((row : ℤ) / griddist + 1) * (2 + width / griddist) ≤
          (1 + height / griddist) * (2 + width / griddist) :=
        mul_le_mul_of_nonneg_right (by omega) (by omega)
      have e : (2 + width / griddist) * (2 + height / griddist) =
          (1 + height / griddist) * (2 + width / griddist) + (2 + width / griddist) := by ring
      rw [e]
      omega
    rw [← hlx] at h
    exact_mod_cast h
  · rw [gw]; omega

end InGrid

section Boundary

end Boundary

section Range

end Range

section ByteRange

end ByteRange

/-- C1. Accumulation step of `texPerlinGrad2d`: for a buffer byte `b` and an
octave byte `t` in `0..255` and the opacity `1 / 2 ^ k`, the byte stored back
is `min 255 (b + t / 2 ^ k)` (natural-number division): the sum saturates at
`255` and never wraps modulo `256`. -/
theorem accumulate_saturates {K : Type} [LinearOrderedField K] [FloorRing K]
    (b t k : ℕ) (hb : b ≤ 255) (ht : t ≤ 255) (hk : 1 ≤ k) :
    accumulate (1 / 2 ^ k : K) b t = min 255 (b + t / 2 ^ k) ∧
      accumulate (1 / 2 ^ k : K) b t ≤ 255 := by
  have _ := hk
  rw [accumulate_inv_pow b t k hb ht]
  exact ⟨rfl, min_le_left _ _⟩

theorem accumulate_saturates_witness :
    accumulate (1 / 2 ^ 1 : ℚ) 200 255 = min 255 (200 + 255 / 2 ^ 1) ∧
      accumulate (1 / 2 ^ 1 : ℚ) 200 255 ≤ 255 :=
  accumulate_saturates 200 255 1 (by decide) (by decide) (by decide)


/-- C2 fails of the code for the call `texPerlin2d(33554439, 1, buffer, 2)`. The
grid has `gridnx = 2 + 33554439 / 2 = 16777221` columns and `gridny = 2` rows,
`gridn = 33554442` entries. For the last pixel, `col = 33554438`, the code
computes `(float)col / griddist` in `float`: `(float)33554438` is `33554440`
and the sample is `16777220`, not `16777219`. So `x0 = 16777220`,
`x1 = 16777221 = gridnx`, and the fourth call of `dot` in `perlin2` reads
position `1 * gridnx + x1 = 33554442 = gridn` of `gridx`, one past its last
entry: over arrays of `gridn` entries `perlin2` has no value, for every content
of the arrays. -/
theorem corner_outside_grid :
    gridSize 33554439 2 = 16777221 ∧ gridSize 1 2 = 2 ∧
      (33554438 : ℤ) < 33554439 ∧
      perlinSample 2 33554438 = 16777220 ∧ perlinSample 2 0 = 0 ∧
      truncInt (perlinSample 2 33554438) + 1 = gridSize 33554439 2 ∧
      gridIndex (gridSize 33554439 2) (truncInt (perlinSample 2 33554438) + 1)
        (truncInt (perlinSample 2 0) + 1) = gridSize 33554439 2 * gridSize 1 2 ∧
      ∀ (cosd : ℚ → ℚ) (gridx gridy : List ℚ),
        (gridx.length : ℤ) = gridSize 33554439 2 * gridSize 1 2 →
        (gridy.length : ℤ) = gridSize 33554439 2 * gridSize 1 2 →
        perlin2Chk cosd (gridSize 33554439 2) gridx gridy
          (perlinSample 2 33554438) (perlinSample 2 0) = none := by
  have hx : perlinSample 2 33554438 = 16777220 := by decide!
  have hy : perlinSample 2 0 = 0 := by decide!
  have tx : truncInt (perlinSample 2 33554438) = 16777220 := by
    rw [hx]; exact truncInt_intCast (K := ℚ) 16777220
  have ty : truncInt (perlinSample 2 0) = 0 := by
    rw [hy]; exact truncInt_intCast (K := ℚ) 0
  have gx : gridSize 33554439 2 = 16777221 := by decide
  have gy : gridSize 1 2 = 2 := by decide
  refine ⟨gx, gy, by decide, hx, hy, by rw [tx, gx]; rfl, by rw [tx, ty, gx, gy]; decide, ?_⟩
  intro cosd gridx gridy hlx _
  unfold perlin2Chk
  apply perlinCellChk_eq_none
  rw [tx, ty, hlx, gx, gy]
  decide

/-- C3, as stated, fails: a pixel whose first byte is `140` has `v = 140 / 255`
in the band `(0.5, 0.6]`, where the exact table gives red
`floor (255 * r) = 130`; `texFireGradient2d`, computing in `float`, stores
`129`. -/
theorem fire_table_counterexample :
    (texFireGradient2d 1 1 [140, 140, 140])[3 * 0 + 2]? = some 129 ∧
      ⌊255 * (specFireTable ((140 : ℚ) / 255)).1⌋₊ = 130 := by
  decide!

/-- C3, amended. `texFireGradient2d` maps every pixel whose first byte is
`val ≤ 255` to the bytes `firePixel val` (blue, green, red in that order), the
four-band table evaluated in `float` arithmetic with the bounds `0.6f`, `0.5f`,
`0.3f`. Each stored byte is the byte `floor (255 * x)` of the exact table or one
less; it is the byte of the exact table unless `val` is one of the 31 values
`fireLowValues`. A pixel with `val = 153` becomes `(0, 0, 0)` and a pixel with
`val = 0` becomes `(255, 255, 255)`. -/
theorem fire_gradient_float (width height : ℤ) (buffer : List ℕ) (p : ℕ)
    (hp : p < (width * height).toNat) (hval : buffer.getD (3 * p) 0 ≤ 255) :
    (∀ c, c < 3 → ∃ b, (texFireGradient2d width height buffer)[3 * p + c]? = some b ∧
        b = (firePixel (buffer.getD (3 * p) 0)).getD c 0 ∧
        b ≤ (specFireBytes (buffer.getD (3 * p) 0)).getD c 0 ∧
        (specFireBytes (buffer.getD (3 * p) 0)).getD c 0 ≤ b + 1 ∧
        (buffer.getD (3 * p) 0 ∉ fireLowValues →
          b = (specFireBytes (buffer.getD (3 * p) 0)).getD c 0)) ∧
    (buffer.getD (3 * p) 0 = 153 →
      (texFireGradient2d width height buffer)[3 * p]? = some 0 ∧
      (texFireGradient2d width height buffer)[3 * p + 1]? = some 0 ∧
      (texFireGradient2d width height buffer)[3 * p + 2]? = some 0) ∧
    (buffer.getD (3 * p) 0 = 0 →
      (texFireGradient2d width height buffer)[3 * p]? = some 255 ∧
      (texFireGradient2d width height buffer)[3 * p + 1]? = some 255 ∧
      (texFireGradient2d width height buffer)[3 * p + 2]? = some 255) := by
  have k := fun c hc => texFireGradient2d_getElem? width height buffer p c hp hc
  have k0 := k 0 (by norm_num)
  have k1 := k 1 (by norm_num)
  have k2 := k 2 (by norm_num)
  rw [Nat.add_zero] at k0
  obtain ⟨hrange, hiff⟩ := firePixel_cases (buffer.getD (3 * p) 0) (by omega)
  refine ⟨?_, ?_, ?_⟩
  · intro c hc
    refine ⟨_, k c hc, rfl, (hrange c hc).1, (hrange c hc).2, ?_⟩
    intro hlow
    rw [hiff.mpr hlow]
  · intro h
    rw [k0, k1, k2, h]
    decide!
  · intro h
    rw [k0, k1, k2, h]
    decide!

theorem fire_gradient_float_witness :
    (texFireGradient2d 1 1 [153, 7, 9])[3 * 0]? = some 0 ∧
      (texFireGradient2d 1 1 [153, 7, 9])[3 * 0 + 1]? = some 0 ∧
      (texFireGradient2d 1 1 [153, 7, 9])[3 * 0 + 2]? = some 0 :=
  (fire_gradient_float 1 1 [153, 7, 9] 0 (by decide) (by decide)).2.1 (by decide)

/-- C4, as stated, fails. On a 30 x 1 buffer of zero bytes, pixel `(1, 0)` has
`xy = 1/6` and the rounded value of `255 * |sin (π * xy)| = 127.5` is `128`;
the code passes the `float` `4392265 / 8388608` to `sinf`, and for every `sinf`
within `1/2000` of the real sine there, `texMarble2d` stores `127`: the
conversion to `unsigned char` truncates. -/
theorem marble_round_counterexample :
    (∀ sinf : ℚ → ℚ,
        |((sinf (4392265 / 8388608) : ℚ) : ℝ) - Real.sin (((4392265 / 8388608 : ℚ) : ℝ))|
          ≤ 1 / 2000 →
        (texMarble2d sinf 30 1 (List.replicate 90 0))[3 * (0 * 30 + 1)]? = some 127) ∧
      marbleArg 30 1 (List.replicate 90 0) 1 0 = 4392265 / 8388608 ∧
      round (255 * |Real.sin (Real.pi * ((1 : ℝ) * 5 / 30 + (0 : ℝ) * 5 / 1 +
        5 * ((0 : ℝ) / 255)))|) = 128 := by
  have harg : marbleArg 30 1 (List.replicate 90 0) 1 0 = 4392265 / 8388608 := by decide!
  refine ⟨?_, harg, ?_⟩
  · intro sinf hacc
    have h := texMarble2d_getElem? sinf 30 1 (List.replicate 90 0) 0 1 0
      (by decide) (by decide) (by decide)
    have hidx : 3 * (0 * (30 : ℤ).toNat + 1) + 0 = 3 * (0 * 30 + 1) := by decide
    rw [hidx] at h
    rw [h]
    unfold marbleByte
    simp only [harg]
    -- the value of `sinf` lies within `1/1000` of `1/2`
    have hreal := sin_marbleArg_near_half
    have hq : |sinf (4392265 / 8388608) - 1 / 2| ≤ 1 / 1000 := by
      have : |((sinf (4392265 / 8388608) : ℚ) : ℝ) - 1 / 2| ≤ 1 / 1000 := by
        have t := abs_sub_le ((sinf (4392265 / 8388608) : ℚ) : ℝ)
          (Real.sin (((4392265 / 8388608 : ℚ) : ℝ))) (1 / 2)
        linarith
      have e : ((sinf (4392265 / 8388608) - 1 / 2 : ℚ) : ℝ) =
          ((sinf (4392265 / 8388608) : ℚ) : ℝ) - 1 / 2 := by push_cast; ring
      have : ((|sinf (4392265 / 8388608) - 1 / 2| : ℚ) : ℝ) ≤ ((1 / 1000 : ℚ) : ℝ) := by
        rw [Rat.cast_abs, e]; push_cast; exact this
      exact_mod_cast this
    obtain ⟨lo, hi⟩ := abs_le.mp hq
    have hpos : 0 ≤ sinf (4392265 / 8388608) := by linarith
    rw [abs_of_nonneg hpos]
    have b1 : (127 : ℚ) ≤ sinf (4392265 / 8388608) * 255 := by linarith
    have b2 : sinf (4392265 / 8388608) * 255 ≤ 1023 / 8 := by linarith
    have c1 : f32 127 = 127 := by decide!
    have c2 : f32 (1023 / 8) = 1023 / 8 := by decide!
    have m1 := f32_mono b1
    have m2 := f32_mono b2
    rw [c1] at m1
    rw [c2] at m2
    rw [toU8_eq_floor (by linarith) (by linarith)]
    congr 1
    rw [Nat.floor_eq_iff (by linarith)]
    constructor
    · exact_mod_cast m1
    · push_cast; linarith
  · have hs : Real.sin (Real.pi / 6) = 1 / 2 := Real.sin_pi_div_six
    have e : Real.pi * ((1 : ℝ) * 5 / 30 + (0 : ℝ) * 5 / 1 + 5 * ((0 : ℝ) / 255)) =
        Real.pi / 6 := by ring
    rw [e, hs, abs_of_pos (by norm_num), round_eq]
    rw [Int.floor_eq_iff]
    constructor <;> norm_num

/-- C4, amended. `texMarble2d` sets the three bytes of every pixel `(col, row)`
to the truncation (not the rounding) of `255 * |sinf (a)|` as the code computes
it: `v` is the pixel's first input byte divided by `255`,
`xy = col * 5 / width + row * 5 / height + 5 * v` is evaluated in `float`, the
product `xy * 3.141592653` in `double`, `a` is that product converted to
`float`, and the product with `255` is rounded to `float` before it is
truncated. This holds for every `sinf` with values in `[-1, 1]`; the byte is at
most `255`, and it is `floor (255 * |sinf (a)|)` or, when the `float` product
rounds up to an integer, one more. -/
theorem marble_float_trunc (sinf : ℚ → ℚ) (width height : ℤ) (buffer : List ℕ)
    (row col c : ℕ) (hs : ∀ x, |sinf x| ≤ 1)
    (hrow : row < height.toNat) (hcol : col < width.toNat) (hc : c < 3) :
    (texMarble2d sinf width height buffer)[3 * (row * width.toNat + col) + c]? =
        some ⌊f32 (|sinf (marbleArg width height buffer col row)| * 255)⌋₊ ∧
      ⌊f32 (|sinf (marbleArg width height buffer col row)| * 255)⌋₊ ≤ 255 ∧
      ⌊|sinf (marbleArg width height buffer col row)| * 255⌋₊ ≤
        ⌊f32 (|sinf (marbleArg width height buffer col row)| * 255)⌋₊ ∧
      ⌊f32 (|sinf (marbleArg width height buffer col row)| * 255)⌋₊ ≤
        ⌊|sinf (marbleArg width height buffer col row)| * 255⌋₊ + 1 ∧
      marbleArg width height buffer col row =
        f32 (f64 (f32 (f32 (f32 (f32 (f32 (col : ℚ) * 5) / f32 (width : ℚ)) +
          f32 (f32 (f32 (row : ℚ) * 5) / f32 (height : ℚ))) +
          f32 (5 * f32 (f32 ((buffer.getD (3 * (row * width.toNat + col)) 0 : ℕ) : ℚ) / 255)))
            * piD)) := by
  have h0 : 0 ≤ |sinf (marbleArg width height buffer col row)| * 255 := by positivity
  have h1 : |sinf (marbleArg width height buffer col row)| * 255 ≤ 255 := by
    have := hs (marbleArg width height buffer col row)
    linarith
  obtain ⟨r0, r1⟩ := f32_le_of_le_255 h0 h1
  have hn : ⌊|sinf (marbleArg width height buffer col row)| * 255⌋₊ ≤ 255 := by
    have : ⌊|sinf (marbleArg width height buffer col row)| * 255⌋₊ ≤ ⌊(255 : ℚ)⌋₊ :=
      Nat.floor_mono h1
    simpa using this
  refine ⟨?_, ?_, ?_, ?_, rfl⟩
  · rw [texMarble2d_getElem? sinf width height buffer row col c hrow hcol hc]
    unfold marbleByte
    simp only
    rw [toU8_eq_floor r0 (by linarith)]
  · have : ⌊f32 (|sinf (marbleArg width height buffer col row)| * 255)⌋₊ ≤ ⌊(255 : ℚ)⌋₊ :=
      Nat.floor_mono r1
    simpa using this
  · apply Nat.le_floor
    have := f32_mono (Nat.floor_le h0)
    rwa [f32_natCast _ (hn.trans (by norm_num))] at this
  · apply Nat.floor_le_of_le
    have := f32_mono (Nat.lt_floor_add_one
      (|sinf (marbleArg width height buffer col row)| * 255)).le
    have e : f32 ((⌊|sinf (marbleArg width height buffer col row)| * 255⌋₊ : ℚ) + 1) =
        ((⌊|sinf (marbleArg width height buffer col row)| * 255⌋₊ + 1 : ℕ) : ℚ) := by
      have := f32_natCast (⌊|sinf (marbleArg width height buffer col row)| * 255⌋₊ + 1)
        (by omega)
      rw [Nat.cast_add, Nat.cast_one] at this
      rw [this, Nat.cast_add, Nat.cast_one]
    rwa [e] at this

theorem marble_float_trunc_witness :
    (texMarble2d (fun _ => 1 / 2) 30 1 (List.replicate 90 0))[
        3 * (0 * (30 : ℤ).toNat + 1) + 0]? =
      some ⌊f32 (|(fun _ => 1 / 2 : ℚ → ℚ) (marbleArg 30 1 (List.replicate 90 0) 1 0)| * 255)⌋₊ :=
  (marble_float_trunc (fun _ => 1 / 2) 30 1 (List.replicate 90 0) 0 1 0
    (fun _ => by norm_num [abs_le]) (by decide) (by decide) (by decide)).1

/-- C5, as stated, fails: for a 400 x 400 texture the pass with index `4` has
`griddist = 2.5`, but `texPerlin2d` takes an `int` and receives `2`; the cell
size used is not `(min(width, height) / 10) / 2 ^ 4`, the grid has
`2 + 400 / 2 = 202` columns, not `2 + 400 / 2.5 = 162`, and pixel column `5` is
sampled at `5 / 2`, not at `5 / 2.5`. -/
theorem octave_cell_size_counterexample :
    (gradOctaves (baseGriddist 400 400) (1 / 2))[4]? = some (5 / 2, 1 / 32) ∧
      truncInt (5 / 2 : ℚ) = 2 ∧
      ((truncInt (5 / 2 : ℚ) : ℤ) : ℚ) ≠ baseGriddist 400 400 / 2 ^ 4 ∧
      gridSize 400 (truncInt (5 / 2 : ℚ)) = 202 ∧
      ((gridSize 400 (truncInt (5 / 2 : ℚ)) : ℤ) : ℚ) ≠
        2 + 400 / (baseGriddist 400 400 / 2 ^ 4) ∧
      perlinSample (truncInt (5 / 2 : ℚ)) 5 = 5 / 2 ∧
      perlinSample (truncInt (5 / 2 : ℚ)) 5 ≠ 5 / (baseGriddist 400 400 / 2 ^ 4) := by
  have ht : truncInt (5 / 2 : ℚ) = 2 := truncInt_octaves_400.2.2.2.2.1
  have hs : gridSize 400 2 = 202 := by decide
  have hp : perlinSample 2 5 = 5 / 2 := by decide!
  rw [ht, hs, hp, baseGriddist_400, gradOctaves_getElem?]
  norm_num

/-- C5, amended. With `b = min(width, height) / 10` computed in `float`, the
`while` loop of `texPerlinGrad2d` makes pass `k` exactly when `b / 2 ^ k > 1`,
with `griddist = b / 2 ^ k` and opacity `(1 / 2) / 2 ^ k`. A pass with cell size
`g` calls `texPerlin2d` with the integer `(int)g`: it draws
`(2 + width / (int)g) * (2 + height / (int)g)` grid entries, samples pixel
`(col, row)` at `((float)col / (int)g, (float)row / (int)g)` on a grid of
`2 + width / (int)g` columns, and accumulates the byte obtained into the
buffer. For a 400 x 400 texture the cell sizes used are `40, 20, 10, 5, 2, 1`. -/
theorem octave_cell_size_truncated (cosd sind : ℚ → ℚ) (rand : ℕ → ℕ) (width height : ℤ)
    (k : ℕ) (g o : ℚ) (st : List ℕ × ℕ) (row col c b : ℕ)
    (hrow : row < height.toNat) (hcol : col < width.toNat) (hc : c < 3)
    (hb : st.1[3 * (row * width.toNat + col) + c]? = some b) :
    baseGriddist width height = f32 (f32 ((min width height : ℤ) : ℚ) / 10) ∧
      texPerlinGrad2d cosd sind rand width height =
        ((gradOctaves (baseGriddist width height) (1 / 2)).foldl
          (fun s p => octaveStep cosd sind rand width height p.1 p.2 s)
          (List.replicate (3 * width * height).toNat 0, 0)).1 ∧
      (gradOctaves (baseGriddist width height) (1 / 2))[k]? =
        (if f32 (f32 ((min width height : ℤ) : ℚ) / 10) / 2 ^ k > 1 then
          some (f32 (f32 ((min width height : ℤ) : ℚ) / 10) / 2 ^ k, 1 / 2 / 2 ^ k)
        else none) ∧
      (octaveStep cosd sind rand width height g o st).1[
          3 * (row * width.toNat + col) + c]? =
        some (accumulate o b (toU8 (f32 (f32 (f32 (1 / 2 *
          perlin2F cosd (2 + Int.tdiv width (truncInt g))
            (fun i => f32 (cosd (gridAngleF (rand (st.2 + i.toNat)))))
            (fun i => f32 (sind (gridAngleF (rand (st.2 + i.toNat)))))
            (f32 (f32 (col : ℚ) / f32 ((truncInt g : ℤ) : ℚ)))
            (f32 (f32 (row : ℚ) / f32 ((truncInt g : ℤ) : ℚ)))) + 1 / 2) * 255)))) ∧
      (octaveStep cosd sind rand width height g o st).2 =
        st.2 + ((2 + Int.tdiv width (truncInt g)) * (2 + Int.tdiv height (truncInt g))).toNat ∧
      (gradOctaves (baseGriddist 400 400) (1 / 2)).map (fun p => truncInt p.1) =
        [40, 20, 10, 5, 2, 1] := by
  have hbase : baseGriddist width height = f32 (f32 ((min width height : ℤ) : ℚ) / 10) := by
    unfold baseGriddist
    simp only
    by_cases h : width < height
    · rw [if_pos h, min_eq_left h.le]
    · rw [if_neg h, min_eq_right (not_lt.mp h)]
  refine ⟨hbase, texPerlinGrad2d_eq_foldl cosd sind rand width height, ?_, ?_, rfl, ?_⟩
  · rw [← hbase]
    exact gradOctaves_getElem? _ _ k
  · have h := texPerlin2d_getElem? cosd sind rand st.2 width height (truncInt g) row col c
      hrow hcol hc
    unfold octaveStep
    simp only [List.getElem?_zipWith, hb, h]
    rfl
  · obtain ⟨t1, t2, t3, t4, t5, t6⟩ := truncInt_octaves_400 (K := ℚ)
    rw [baseGriddist_400, gradOctaves_40]
    simp only [List.map_cons, List.map_nil, t1, t2, t3, t4, t5, t6]

theorem octave_cell_size_truncated_witness :
    (octaveStep (fun x => x) (fun x => x) (fun n => n) 400 400 (5 / 2) (1 / 32)
        (List.replicate 480000 0, 0)).2 =
      0 + ((2 + Int.tdiv 400 (truncInt (5 / 2 : ℚ))) *
        (2 + Int.tdiv 400 (truncInt (5 / 2 : ℚ)))).toNat :=
  (octave_cell_size_truncated (fun x => x) (fun x => x) (fun n => n) 400 400 4
    (5 / 2) (1 / 32) (List.replicate 480000 0, 0) 0 5 0 0 (by decide) (by decide) (by decide)
    (List.getElem?_replicate_of_lt (by decide))).2.2.2.2.1

/-- C8. For `width, height ≥ 1` and every outcome of `rand()`, the buffer of
`texPerlinGrad2d` is greyscale (the bytes at offsets `3p`, `3p + 1`, `3p + 2`
agree for every pixel `p`, and the length is `3 * width * height`): at the
start, after each pass of the loop body, after any number of passes, and at
return. -/
theorem perlin_grad_greyscale (cosd sind : ℚ → ℚ) (rand : ℕ → ℕ) (width height : ℤ)
    (hw : 1 ≤ width) (hh : 1 ≤ height) :
    isGreyscale (width * height).toNat (List.replicate (3 * width * height).toNat 0) ∧
      (∀ (g o : ℚ) (st : List ℕ × ℕ), isGreyscale (width * height).toNat st.1 →
        isGreyscale (width * height).toNat
          (octaveStep cosd sind rand width height g o st).1) ∧
      (∀ n : ℕ, isGreyscale (width * height).toNat
        (((gradOctaves (baseGriddist width height) (1 / 2)).take n).foldl
          (fun s p => octaveStep cosd sind rand width height p.1 p.2 s)
          (List.replicate (3 * width * height).toNat 0, 0)).1) ∧
      isGreyscale (width * height).toNat
        (texPerlinGrad2d cosd sind rand width height) := by
  obtain ⟨e1, e2⟩ := toNat_mul_of_pos width height hw hh
  have h0 : isGreyscale (height.toNat * width.toNat)
      (List.replicate (3 * (height.toNat * width.toNat)) 0) := isGreyscale_replicate _ _
  rw [e1, e2]
  refine ⟨h0, ?_, ?_, ?_⟩
  · intro g o st hst
    exact foldl_octaveStep_isGreyscale cosd sind rand width height [(g, o)] st hst
  · intro n
    exact foldl_octaveStep_isGreyscale cosd sind rand width height _ _ h0
  · rw [texPerlinGrad2d_eq_foldl, e2]
    exact foldl_octaveStep_isGreyscale cosd sind rand width height _ _ h0

theorem perlin_grad_greyscale_witness :
    isGreyscale ((400 : ℤ) * 400).toNat
      (texPerlinGrad2d (fun x => x) (fun x => x) (fun n => n) 400 400) :=
  (perlin_grad_greyscale (fun x => x) (fun x => x) (fun n => n) 400 400
    (by decide) (by decide)).2.2.2

/-- C9. The saturation branch of `texPerlinGrad2d` is never taken. Whatever
bytes `ts` (each at most `255`) the successive octaves hold at one position,
accumulating them from `0` with the opacities `1/2, 1/4, 1/8, ...` gives a byte
of at most `247`, and for the next octave byte `t` the test
`buffer[i] + bit > 255` is false; every byte of the buffer `texPerlinGrad2d`
returns is at most `247`. -/
theorem saturation_unreachable {K : Type} [LinearOrderedField K] [FloorRing K]
    (cosd sind : ℚ → ℚ) (rand : ℕ → ℕ) (width height : ℤ)
    (ts : List ℕ) (t : ℕ) (hts : ∀ x, x ∈ ts → x ≤ 255) (ht : t ≤ 255) :
    (ts.foldl (fun s x => (accumulate s.2 s.1 x, s.2 / 2)) ((0 : ℕ), (1 / 2 : K))).1 ≤ 247 ∧
      ¬ ((ts.foldl (fun s x => (accumulate s.2 s.1 x, s.2 / 2)) ((0 : ℕ), (1 / 2 : K))).1 +
        toU8 ((t : K) *
          (ts.foldl (fun s x => (accumulate s.2 s.1 x, s.2 / 2)) ((0 : ℕ), (1 / 2 : K))).2)
          > 255) ∧
      ∀ b, b ∈ texPerlinGrad2d cosd sind rand width height → b ≤ 247 := by
  have chain : ∀ (l : List ℕ) (j b : ℕ), (∀ x, x ∈ l → x ≤ 255) → b ≤ octaveBound j →
      ∃ j', (l.foldl (fun s x => (accumulate s.2 s.1 x, s.2 / 2)) (b, (1 / 2 / 2 ^ j : K))).1
          ≤ octaveBound j' ∧
        (l.foldl (fun s x => (accumulate s.2 s.1 x, s.2 / 2)) (b, (1 / 2 / 2 ^ j : K))).2
          = 1 / 2 / 2 ^ j' := by
    intro l
    induction l with
    | nil => intro j b _ hb; exact ⟨j, hb, rfl⟩
    | cons x l ih =>
      intro j b hl hb
      rw [List.foldl_cons]
      have e : (1 / 2 / 2 ^ j / 2 : K) = 1 / 2 / 2 ^ (j + 1) := by
        rw [div_div (1 / 2 : K), ← pow_succ]
      simp only [e]
      exact ih (j + 1) _ (fun y hy => hl y (List.mem_cons_of_mem _ hy))
        (accumulate_half_pow b x j hb (hl x (List.mem_cons_self _ _))).2.2
  obtain ⟨j', h1, h2⟩ := chain ts 0 0 hts (Nat.zero_le _)
  simp only [pow_zero, div_one] at h1 h2
  refine ⟨h1.trans (octaveBound_le j'), ?_, ?_⟩
  · rw [h2]
    have := (accumulate_half_pow (K := K) _ t j' h1 ht).2.1
    omega
  · unfold texPerlinGrad2d
    simp only
    obtain ⟨n, hn⟩ := gradLoop_invariant cosd sind rand width height
      (fun j st => ∀ b, b ∈ st.1 → b ≤ octaveBound j) (1 / 2)
      (fun j g st h => octaveStep_bound cosd sind rand width height j g st h)
      (baseGriddist width height) 0 (List.replicate (3 * width * height).toNat 0, 0)
      (fun b hb => by rw [List.eq_of_mem_replicate hb]; exact Nat.zero_le _)
    simp only [pow_zero, div_one] at hn
    exact fun b hb => (hn b hb).trans (octaveBound_le n)

theorem saturation_unreachable_witness :
    ([255, 255, 255].foldl (fun s x => (accumulate s.2 s.1 x, s.2 / 2))
      ((0 : ℕ), (1 / 2 : ℚ))).1 ≤ 247 :=
  (saturation_unreachable (K := ℚ) (fun x => x) (fun x => x) (fun n => n) 4 4
    [255, 255, 255] 255 (by decide) (by decide)).1

/-- C10, as stated, fails beyond `2 ^ 24` columns. In a texture 16777222 pixels
wide with cell size `3`, column `16777221 = 3 * 5592407` is a multiple of the
cell size, but `(float)16777221` is `16777220` and the pixel is sampled at
`5592406.5`, between two lattice points. When `rand()` makes the gradient of
the left one `(cos 0, sin 0)` and the right one the gradient of angle
`2 * 0.5 * 3.141592653`, the byte written is at least `143`, not `127`, for
every `cos` with `cos(0.0) = 1.0`, values in `[-1, 1]` and a value of at most
`-1/2` at that angle (the `float` `13176795 / 4194304`, next to `π`). -/
theorem lattice_counterexample :
    perlinSample 3 16777221 = 11184813 / 2 ∧
      ∀ cosd sind : ℚ → ℚ, cosd 0 = 1 → (∀ x, -1 ≤ cosd x ∧ cosd x ≤ 1) →
        cosd (13176795 / 4194304) ≤ -1 / 2 →
        ∃ b, (texPerlin2d cosd sind (fun i => if i = 5592407 then 500 else 0) 0
            16777222 1 3).1[3 * (0 * 16777222 + 16777221)]? = some b ∧
          143 ≤ b ∧ b ≠ 127 := by
  have hs : perlinSample 3 16777221 = 11184813 / 2 := by decide!
  refine ⟨hs, ?_⟩
  intro cosd sind hcos hr hpi
  have h := texPerlin2d_getElem? cosd sind (fun i => if i = 5592407 then 500 else 0) 0
    16777222 1 3 0 16777221 0 (by decide) (by decide) (by decide)
  have hidx : 3 * (0 * (16777222 : ℤ).toNat + 16777221) + 0 =
      3 * (0 * 16777222 + 16777221) := by decide
  rw [hidx] at h
  obtain ⟨-, -, -, km1, km12, -⟩ := float_consts
  have hang : gridAngleF 500 = 13176795 / 4194304 ∧ gridAngleF 0 = 0 := by decide!
  have hsy : perlinSample 3 0 = ((0 : ℤ) : ℚ) := by decide!
  have hsx : perlinSample 3 16777221 = ((5592406 : ℤ) : ℚ) + 1 / 2 := by
    rw [hs]; norm_num
  have hG : gridSize 16777222 3 = 5592409 := by decide
  have key := perlinByte_ge cosd hcos hr (gridSize 16777222 3)
    (fun i => f32 (cosd (gridAngleF ((fun i => if i = 5592407 then 500 else 0) (0 + i.toNat)))))
    (fun i => f32 (sind (gridAngleF ((fun i => if i = 5592407 then 500 else 0) (0 + i.toNat)))))
    3 16777221 0 5592406 0 hsx hsy (by norm_num) (by norm_num) (by norm_num)
    (by
      have e : (0 + (gridIndex (gridSize 16777222 3) 5592406 0).toNat) = 5592406 := by
        rw [hG]; decide
      simp only [e]
      norm_num [hang.2, hcos, f32_one])
    (by
      have e : (0 + (gridIndex (gridSize 16777222 3) (5592406 + 1) 0).toNat) = 5592407 := by
        rw [hG]; decide
      simp only [e, if_true, hang.1]
      exact f32_bounds km1 km12 (hr _).1 (by linarith))
  exact ⟨_, h, key, by omega⟩

/-- C10, amended. The value at a lattice point does not depend on the
gradients: `perlin2` is `0` at integer coordinates for every grid, in exact
arithmetic and, for coordinates of absolute value at most `2 ^ 24`, as the code
computes it; `texPerlin2d` writes `127` at every pixel whose column and row are
multiples of `griddist`, provided column, row and `griddist` are at most
`2 ^ 24 = 16777216` (up to there `(float)col / griddist` is the exact quotient);
and `texPerlinGrad2d(400, 400)` leaves the three bytes of pixel `(0, 0)` equal to
`120` for every outcome of `rand()`. Of libm this assumes `cos(0.0) = 1.0`. -/
theorem lattice_value_fixed (cosd sind : ℚ → ℚ) (rand : ℕ → ℕ) (off : ℕ) (gridnx : ℤ)
    (gridx gridy : ℤ → ℝ) (gridxF gridyF : ℤ → ℚ)
    (m n width height griddist : ℤ) (row col c : ℕ) (hcos : cosd 0 = 1)
    (hm : |m| ≤ 2 ^ 24) (hn : |n| ≤ 2 ^ 24)
    (hg : 1 ≤ griddist) (hg' : griddist ≤ 2 ^ 24)
    (hrow : row < height.toNat) (hcol : col < width.toNat) (hc : c < 3)
    (hrow' : row ≤ 2 ^ 24) (hcol' : col ≤ 2 ^ 24)
    (hdc : griddist ∣ (col : ℤ)) (hdr : griddist ∣ (row : ℤ)) :
    perlin2 Real.cos Real.pi gridnx gridx gridy (m : ℝ) (n : ℝ) = 0 ∧
      perlin2F cosd gridnx gridxF gridyF (m : ℚ) (n : ℚ) = 0 ∧
      (texPerlin2d cosd sind rand off width height griddist).1[
        3 * (row * width.toNat + col) + c]? = some 127 ∧
      (texPerlinGrad2d cosd sind rand 400 400)[c]? = some 120 := by
  refine ⟨perlin2_lattice Real.cos Real.pi Real.cos_zero gridnx gridx gridy m n,
    perlin2F_lattice cosd hcos gridnx gridxF gridyF m n hm hn, ?_, ?_⟩
  · rw [texPerlin2d_getElem? cosd sind rand off width height griddist row col c hrow hcol hc,
      perlinByte_lattice cosd hcos _ _ _ griddist col row hg hg' hcol' hrow' hdc hdr]
  · obtain ⟨t1, t2, t3, t4, t5, t6⟩ := truncInt_octaves_400 (K := ℚ)
    have step := fun (g o : ℚ) (hg : 1 ≤ truncInt g) (hg' : truncInt g ≤ 2 ^ 24)
      (st : List ℕ × ℕ) (b : ℕ) (hb : st.1[c]? = some b) =>
      octaveStep_origin cosd sind hcos rand 400 400
        (by norm_num) (by norm_num) g o hg hg' st c b hc hb
    have hinit : (List.replicate (3 * (400 : ℤ) * 400).toNat 0, 0).1[c]? = some 0 := by
      have hlt : c < (3 * (400 : ℤ) * 400).toNat := by
        have : (3 * (400 : ℤ) * 400).toNat = 480000 := by decide
        omega
      exact List.getElem?_replicate_of_lt hlt
    have a1 : accumulate (1 / 2 : ℚ) 0 127 = 63 := by
      have := accumulate_inv_pow (K := ℚ) 0 127 1 (by norm_num) (by norm_num)
      rw [pow_one] at this
      rw [this]; decide
    have a2 : accumulate (1 / 2 / 2 : ℚ) 63 127 = 94 := by
      have := accumulate_inv_pow (K := ℚ) 63 127 2 (by norm_num) (by norm_num)
      rw [show (1 / 2 / 2 : ℚ) = 1 / 2 ^ 2 by norm_num, this]; decide
    have a3 : accumulate (1 / 2 / 2 / 2 : ℚ) 94 127 = 109 := by
      have := accumulate_inv_pow (K := ℚ) 94 127 3 (by norm_num) (by norm_num)
      rw [show (1 / 2 / 2 / 2 : ℚ) = 1 / 2 ^ 3 by norm_num, this]; decide
    have a4 : accumulate (1 / 2 / 2 / 2 / 2 : ℚ) 109 127 = 116 := by
      have := accumulate_inv_pow (K := ℚ) 109 127 4 (by norm_num) (by norm_num)
      rw [show (1 / 2 / 2 / 2 / 2 : ℚ) = 1 / 2 ^ 4 by norm_num, this]; decide
    have a5 : accumulate (1 / 2 / 2 / 2 / 2 / 2 : ℚ) 116 127 = 119 := by
      have := accumulate_inv_pow (K := ℚ) 116 127 5 (by norm_num) (by norm_num)
      rw [show (1 / 2 / 2 / 2 / 2 / 2 : ℚ) = 1 / 2 ^ 5 by norm_num, this]; decide
    have a6 : accumulate (1 / 2 / 2 / 2 / 2 / 2 / 2 : ℚ) 119 127 = 120 := by
      have := accumulate_inv_pow (K := ℚ) 119 127 6 (by norm_num) (by norm_num)
      rw [show (1 / 2 / 2 / 2 / 2 / 2 / 2 : ℚ) = 1 / 2 ^ 6 by norm_num, this]; decide
    rw [texPerlinGrad2d_eq_foldl, baseGriddist_400, gradOctaves_40]
    simp only [List.foldl_cons, List.foldl_nil]
    have s1 := step 40 (1 / 2) (by rw [t1]; norm_num) (by rw [t1]; norm_num) _ 0 hinit
    rw [a1] at s1
    have s2 := step 20 (1 / 2 / 2) (by rw [t2]; norm_num) (by rw [t2]; norm_num) _ 63 s1
    rw [a2] at s2
    have s3 := step 10 (1 / 2 / 2 / 2) (by rw [t3]; norm_num) (by rw [t3]; norm_num) _ 94 s2
    rw [a3] at s3
    have s4 := step 5 (1 / 2 / 2 / 2 / 2) (by rw [t4]; norm_num) (by rw [t4]; norm_num)
      _ 109 s3
    rw [a4] at s4
    have s5 := step (5 / 2) (1 / 2 / 2 / 2 / 2 / 2) (by rw [t5]; norm_num)
      (by rw [t5]; norm_num) _ 116 s4
    rw [a5] at s5
    have s6 := step (5 / 4) (1 / 2 / 2 / 2 / 2 / 2 / 2) (by rw [t6])
      (by rw [t6]; norm_num) _ 119 s5
    rw [a6] at s6
    exact s6

theorem lattice_value_fixed_witness :
    (texPerlinGrad2d (fun _ => 1) (fun _ => 0) (fun n => n) 400 400)[0]? = some 120 :=
  (lattice_value_fixed (fun _ => 1) (fun _ => 0) (fun n => n) 0 12 (fun _ => 1) (fun _ => 0)
    (fun _ => 1) (fun _ => 0) 3 4 400 400 40 0 0 0 rfl (by norm_num [abs_le])
    (by norm_num [abs_le]) (by decide) (by decide) (by decide) (by decide) (by decide)
    (by decide) (by decide) (by decide) (by decide)).2.2.2

end Texture
